import Mathlib

/-!
# Verification of `bauh/gems/arch/aur.py`

A shallow embedding of the .SRCINFO parsing/merging pipeline and of the
`AURClient` metadata component of `bauh/gems/arch/aur.py`, together with
proofs about the claims of its specification.

Conventions of the embedding:
* Python strings are Lean `String`s; the character classes `\w` and `\s` of
  the regular expressions are modelled over their ASCII range.
* A Python `dict` is an insertion-ordered association list with unique keys
  (`getR` / `setR` mirror `d.get(k)` / `d[k] = v`).
* A Python `set` of strings is modelled as a duplicate-free list in insertion
  order (`addUnique`); CPython's set iteration order is unspecified, so only
  the *contents* of such lists are semantically meaningful.
* The HTTP collaborator is an oracle (`Transport`); calls it receives are
  recorded in an explicit call log so that claims about "no second fetch"
  can be stated.  Recursion of `get_src_info` is made total with a fuel
  parameter; exhausted fuel is the `Outcome.diverge` marker (the Python
  function has no such bound and would recurse until `RecursionError`).
-/

namespace Aur

/-! ## Character classes and string helpers (`re` / `str.strip`) -/

/-- The `\w` character class of `RE_SRCINFO_KEYS`, over the ASCII range. -/
def pyWordChar (c : Char) : Bool :=
  c.isAlphanum || c = '_'

/-- The `\s` character class of `RE_SRCINFO_KEYS`, over the ASCII range. -/
def pyWsChar (c : Char) : Bool :=
  c = ' ' || c = '\t' || c = '\n' || c = '\r' || c = '\x0b' || c = '\x0c'

/-- Python `str.strip()`: drop leading and trailing whitespace. -/
def pyStrip (s : String) : String :=
  String.mk (((s.toList.dropWhile pyWsChar).reverse.dropWhile pyWsChar).reverse)

/-- Insertion into a Python `set` modelled as a duplicate-free list:
`s.add(a)` keeps the set unchanged when `a` is already present. -/
def addUnique {α : Type} [DecidableEq α] (l : List α) (a : α) : List α :=
  if a ∈ l then l else l ++ [a]

/-! ## The line tokenizer: `RE_SRCINFO_KEYS.findall(string)`

`RE_SRCINFO_KEYS = re.compile(r'(\w+)\s+=\s+(.+)\n')`.

The scan below is the deterministic unfolding of Python's leftmost, greedy
matching of this particular pattern:

* `(\w+)` takes a maximal word run; backtracking it can never help because a
  word character can not begin the following `\s+`.
* the first `\s+` takes a maximal whitespace run and the next character must
  be `=`; shortening the run leaves a whitespace character where `=` is
  required, so again no backtracking arises.
* after `=`, the second `\s+` is greedy over the maximal whitespace run but
  genuinely backtracks against `(.+)\n`: the longest split of the run whose
  remainder starts with a non-newline character and reaches a `\n` wins
  (`wsBacktrack`).
* a failed attempt anywhere inside a word run fails at every later position
  of the same run (the text after the run is the same), so the scan resumes
  after the run.
-/

/-- Match `(.+)\n` at `text`: the value runs to the next newline, which must
exist; `.` does not match a newline, so the value itself must start with a
non-newline character.  Returns the value and the text after the newline. -/
def valAt (text : List Char) : Option (List Char × List Char) :=
  match text with
  | [] => none
  | c :: _ =>
    if c = '\n' then none
    else
      match text.dropWhile (fun x => !(x = '\n')) with
      | [] => none
      | _ :: rem => some (text.takeWhile (fun x => !(x = '\n')), rem)

/-- Greedy `\s+` against `(.+)\n`: `wRev` is the still-unclaimed part of the
whitespace run (reversed), `q` the part already conceded to `(.+)\n`.  The
longest whitespace prefix is tried first; at least one whitespace character
must remain claimed, so backtracking stops once `wRev` is a singleton. -/
def wsBacktrack : List Char → List Char → List Char → Option (List Char × List Char)
  | [], q, rest =>
    match valAt (q ++ rest) with
    | some r => some r
    | none => none
  | [_], q, rest =>
    match valAt (q ++ rest) with
    | some r => some r
    | none => none
  | c :: c' :: wRev', q, rest =>
    match valAt (q ++ rest) with
    | some r => some r
    | none => wsBacktrack (c' :: wRev') (c :: q) rest

/-- One match attempt of `RE_SRCINFO_KEYS` at a position whose first
character is a word character.  On success returns the two captures and the
text after the match. -/
def attemptMatch (s : List Char) : Option ((List Char × List Char) × List Char) :=
  let k := s.takeWhile pyWordChar
  let s1 := s.dropWhile pyWordChar
  let w1 := s1.takeWhile pyWsChar
  let s2 := s1.dropWhile pyWsChar
  if w1 = [] then none
  else
    match s2 with
    | c :: s3 =>
      if c = '=' then
        let w2 := s3.takeWhile pyWsChar
        let s4 := s3.dropWhile pyWsChar
        if w2 = [] then none
        else
          match wsBacktrack w2.reverse [] s4 with
          | some (v, rem) => some ((k, v), rem)
          | none => none
      else none
    | [] => none

/-- The scan loop of `findall`; each step consumes at least one character,
so fuel equal to the length of the text suffices. -/
def findAllAux : Nat → List Char → List (String × String)
  | 0, _ => []
  | _, [] => []
  | fuel + 1, c :: rest =>
    if pyWordChar c then
      match attemptMatch (c :: rest) with
      | some ((k, v), rem) => (String.mk k, String.mk v) :: findAllAux fuel rem
      | none => findAllAux fuel ((c :: rest).dropWhile pyWordChar)
    else findAllAux fuel rest

/-- The call `RE_SRCINFO_KEYS.findall(string)`. -/
def findAll (s : String) : List (String × String) :=
  findAllAux s.toList.length s.toList

/-! ## Records: Python dicts whose values are strings, sets or lists -/

/-- A field value of a `.SRCINFO` record: a bare string, a Python `set`
(duplicate-free list, insertion order) or the list it is materialized into
at the end of `merge_subinfos`. -/
inductive Val : Type where
  | scalar : String → Val
  | vset : List String → Val
  | vlist : List String → Val
deriving DecidableEq, Repr

/-- A Python dict from field names to values, as an insertion-ordered
association list with unique keys. -/
abbrev Rec := List (String × Val)

/-- Dict lookup `d.get(k)`. -/
def getR : Rec → String → Option Val
  | [], _ => none
  | kv :: rest, k => if kv.1 = k then some kv.2 else getR rest k

/-- Dict assignment `d[k] = v`: replace in place when the key exists, otherwise append. -/
def setR : Rec → String → Val → Rec
  | [], k, v => [(k, v)]
  | kv :: rest, k, v => if kv.1 = k then (k, v) :: rest else kv :: setR rest k v

/-! ## `map_srcinfo`: segmentation into sub-package blocks -/

/-- The tuple `KNOWN_LIST_FIELDS`. -/
def KNOWN_LIST_FIELDS : List String :=
  ["validpgpkeys",
   "checkdepends", "checkdepends_x86_64", "checkdepends_i686",
   "depends", "depends_x86_64", "depends_i686",
   "optdepends", "optdepends_x86_64", "optdepends_i686",
   "sha256sums", "sha256sums_x86_64",
   "sha512sums", "sha512sums_x86_64",
   "source", "source_x86_64", "source_i686",
   "makedepends", "makedepends_x86_64", "makedepends_i686",
   "provides", "conflicts"]

/-- The boundary keys `key_fields = {'pkgname', 'pkgbase'}`. -/
def keyFields : List String := ["pkgname", "pkgbase"]

/-- The test `not fields or key in fields` — the optional field allow-list check
(`None` and the empty set are both falsy). -/
def fieldsPass (fields : Option (List String)) (key : String) : Bool :=
  match fields with
  | none => true
  | some l => decide (l = []) || decide (key ∈ l)

/-- The in-block insertion of `map_srcinfo`:

```
if key not in subinfo:
    subinfo[key] = {val} if key in KNOWN_LIST_FIELDS else val
else:
    if not isinstance(subinfo[key], set):
        subinfo[key] = {subinfo[key]}
    subinfo[key].add(val)
```
-/
def blockInsert (b : Rec) (key val : String) : Rec :=
  match getR b key with
  | none =>
    setR b key (if key ∈ KNOWN_LIST_FIELDS then Val.vset [val] else Val.scalar val)
  | some (Val.scalar s) => setR b key (Val.vset (addUnique [s] val))
  | some (Val.vset l) => setR b key (Val.vset (addUnique l val))
  | some (Val.vlist l) => setR b key (Val.vset (addUnique l val))

/-- The fold state of the segmentation loop: the closed blocks and the
current block. -/
structure SegState : Type where
  subinfos : List Rec
  subinfo : Rec
deriving DecidableEq, Repr

/-- One iteration of the `for field in RE_SRCINFO_KEYS.findall(string)`
loop of `map_srcinfo`. -/
def procPair (fields : Option (List String)) (st : SegState) (field : String × String) :
    SegState :=
  let key := pyStrip field.1
  let val := pyStrip field.2
  if st.subinfo ≠ [] ∧ key ∈ keyFields then
    ⟨st.subinfos ++ [st.subinfo], [(key, Val.scalar val)]⟩
  else if fieldsPass fields key then ⟨st.subinfos, blockInsert st.subinfo key val⟩
  else st

/-- The block list produced by the loop of `map_srcinfo` (lines 50–71),
including the final `if subinfo: subinfos.append(subinfo)`. -/
def mapSrcinfoBlocks (pairs : List (String × String)) (fields : Option (List String)) :
    List Rec :=
  let st := pairs.foldl (procPair fields) ⟨[], []⟩
  if st.subinfo ≠ [] then st.subinfos ++ [st.subinfo] else st.subinfos

/-! ## `merge_subinfos` -/

/-- The set `pkgnames = {s['pkgname'] for s in subinfos if 'pkgname' in s}`. -/
def subinfoPkgnames (subinfos : List Rec) : List Val :=
  (subinfos.filterMap (fun s => getR s "pkgname")).foldl addUnique []

/-- The target-name dispatch of `map_srcinfo` (line 75):
`None if (not pkgname or len(pkgnames) == 1 or pkgname not in pkgnames) else pkgname`. -/
def mergeTarget (subinfos : List Rec) (pkgname : Option String) : Option String :=
  match pkgname with
  | none => none
  | some p =>
    if p = "" ∨ (subinfoPkgnames subinfos).length = 1 ∨
        Val.scalar p ∉ subinfoPkgnames subinfos then
      none
    else some p

/-- The test `not pkgname or subinfo.get('pkgname') in {None, pkgname}`. -/
def mergeCond (pkgname : Option String) (subinfo : Rec) : Bool :=
  match pkgname with
  | none => true
  | some p =>
    decide (p = "") || decide (getR subinfo "pkgname" = none) ||
      decide (getR subinfo "pkgname" = some (Val.scalar p))

/-- The per-field folding step of `merge_subinfos` (lines 83–97): the first
value seen is stored as-is, a second one promotes the stored value to a set
and adds or unions into it. -/
def mergeInsert (fields : Option (List String)) (info : Rec) (kv : String × Val) : Rec :=
  if fieldsPass fields kv.1 then
    match getR info kv.1 with
    | none => setR info kv.1 kv.2
    | some cv =>
      let cvS : List String :=
        match cv with
        | Val.scalar s => [s]
        | Val.vset l => l
        | Val.vlist l => l
      let newS : List String :=
        match kv.2 with
        | Val.scalar s => addUnique cvS s
        | Val.vset l => l.foldl addUnique cvS
        | Val.vlist l => l.foldl addUnique cvS
      setR info kv.1 (Val.vset newS)
  else info

/-- The materialization loop of `merge_subinfos` (lines 99–104): every set
value is turned into a list (`info[field] = [*val]`). -/
def finalizeRec (info : Rec) : Rec :=
  info.map (fun kv =>
    match kv.2 with
    | Val.vset l => (kv.1, Val.vlist l)
    | v => (kv.1, v))

/-- The function `merge_subinfos(subinfos, pkgname, fields)`. -/
def merge_subinfos (subinfos : List Rec) (pkgname : Option String)
    (fields : Option (List String)) : Rec :=
  finalizeRec
    (subinfos.foldl
      (fun info subinfo =>
        if mergeCond pkgname subinfo then subinfo.foldl (mergeInsert fields) info
        else info)
      [])

/-- Lines 73–76 of `map_srcinfo`: the merge of a block list for an optional
requested sub-package name. -/
def mergeForName (subinfos : List Rec) (pkgname : Option String)
    (fields : Option (List String)) : Rec :=
  merge_subinfos subinfos (mergeTarget subinfos pkgname) fields

/-- The function `map_srcinfo(string, pkgname, fields)`. -/
def map_srcinfo (string : String) (pkgname : Option String)
    (fields : Option (List String) := none) : Rec :=
  mergeForName (mapSrcinfoBlocks (findAll string) fields) pkgname fields

/-! ## The `AURClient` component

The HTTP collaborator (`bauh.api.http.HttpClient`) is not part of the file
under verification; following the specification it returns a response or an
absent value and never lets a connectivity failure escape to its caller.
The transport is an oracle from request to outcome; every remote call the
client performs is recorded in a call log. -/

/-- The outcome of one raw HTTP GET: a connectivity failure, or a response
(`none` models a missing response, `some text` a response with body
`text` — Python's `res`/`res.text`). -/
inductive Fetch : Type where
  | connFail : Fetch
  | resp : Option String → Fetch
deriving DecidableEq, Repr

/-- Modelled from the spec: `HttpClient.get` (`bauh/api/http.py`, not under
`src/`) returns the response text or an absent value, and converts a
transport-level connectivity failure into an absent value instead of
raising it to the caller. -/
def httpGet : Fetch → Option String
  | Fetch.connFail => none
  | Fetch.resp r => r

/-- One entry of the `results` list of the AUR info endpoint, restricted to
the fields `get_src_info` consumes: `info.get('Name')` and
`info.get('PackageBase')`. -/
structure InfoEntry : Type where
  name : Option String
  packageBase : Option String
deriving DecidableEq, Repr

/-- The outcome of `http_client.get_json` on the info endpoint: a raised
connectivity failure, a falsy response (or one with no truthy `results`
key), or a `results` list. -/
inductive InfoResp : Type where
  | connFail : InfoResp
  | noRes : InfoResp
  | results : List InfoEntry → InfoResp
deriving DecidableEq, Repr

/-- The remote collaborator as an oracle: the `.SRCINFO` document fetch by
package name, the info endpoint by queried name list, and the bulk index
download. -/
structure Transport : Type where
  srcinfo : String → Fetch
  info : List String → InfoResp
  index : Fetch

/-- A remote call performed by the client, for the call log. -/
inductive RemoteCall : Type where
  | srcinfoFetch : String → RemoteCall
  | infoFetch : String → RemoteCall
deriving DecidableEq, Repr

/-- The method `AURClient.get_info`: the `try` body returns `res['results']` when the
response and its `results` entry are truthy and `[]` otherwise; the bare
`except` turns any raised failure into `[]` as well. -/
def get_info (t : Transport) (names : List String) : List InfoEntry :=
  match t.info names with
  | InfoResp.connFail => []
  | InfoResp.noRes => []
  | InfoResp.results rs => if rs = [] then [] else rs

/-- The result of `get_src_info`: a returned value (`none` models Python's
implicit `return None`), or exhaustion of the fuel bound — the Python
function has no recursion bound of its own. -/
inductive Outcome : Type where
  | ok : Option Rec → Outcome
  | diverge : Outcome
deriving DecidableEq, Repr

/-- The state of `srcinfo_cache`, an insertion-ordered dict. -/
abbrev Cache := List (String × Rec)

/-- Cache lookup `srcinfo_cache.get(name)`. -/
def cacheGet : Cache → String → Option Rec
  | [], _ => none
  | kv :: rest, k => if kv.1 = k then some kv.2 else cacheGet rest k

/-- Cache assignment `srcinfo_cache[name] = srcinfo`. -/
def cacheSet : Cache → String → Rec → Cache
  | [], k, v => [(k, v)]
  | kv :: rest, k, v => if kv.1 = k then (k, v) :: rest else kv :: cacheSet rest k v

/-- Python truthiness of an optional dict: `None` and `{}` are falsy. -/
def recTruthy : Option Rec → Bool
  | none => false
  | some r => decide (r ≠ [])

/-- The result record of one `get_src_info` call: the returned value, the
cache afterwards, and the remote calls performed. -/
structure GsiOut : Type where
  result : Outcome
  cache : Cache
  calls : List RemoteCall
deriving DecidableEq, Repr

/-- Lines 142–159 of `get_src_info`: the fallback through the info
endpoint.  `recCall` is the recursive lookup
`get_src_info(name=info_base, real_name=info_name)` performed when the
entry's canonical name and base name are truthy and differ. -/
def gsiFallback (t : Transport) (recCall : String → Option String → GsiOut)
    (cache : Cache) (name : String) : GsiOut :=
  match get_info t [name] with
  | [] => ⟨Outcome.ok none, cache, [RemoteCall.srcinfoFetch name, RemoteCall.infoFetch name]⟩
  | info :: _ =>
    match info.name, info.packageBase with
    | some n, some b =>
      if n ≠ "" ∧ b ≠ "" ∧ n ≠ b then
        let r := recCall b (some n)
        match r.result with
        | Outcome.ok srcinfo =>
          if recTruthy srcinfo then
            ⟨Outcome.ok srcinfo, cacheSet r.cache name (srcinfo.getD []),
              RemoteCall.srcinfoFetch name :: RemoteCall.infoFetch name :: r.calls⟩
          else
            ⟨Outcome.ok srcinfo, r.cache,
              RemoteCall.srcinfoFetch name :: RemoteCall.infoFetch name :: r.calls⟩
        | Outcome.diverge =>
          ⟨Outcome.diverge, r.cache,
            RemoteCall.srcinfoFetch name :: RemoteCall.infoFetch name :: r.calls⟩
      else ⟨Outcome.ok none, cache, [RemoteCall.srcinfoFetch name, RemoteCall.infoFetch name]⟩
    | _, _ =>
      ⟨Outcome.ok none, cache, [RemoteCall.srcinfoFetch name, RemoteCall.infoFetch name]⟩

/-- The body of one `get_src_info` call (lines 126–159), with the
recursive fallback lookup abstracted as `recCall`:

1. a truthy cached record is returned at once;
2. otherwise the document is fetched; truthy content is parsed with
   `map_srcinfo` targeted at `real_name if real_name else name`, cached
   when non-empty and returned;
3. otherwise `gsiFallback` consults the info endpoint. -/
def gsiStep (t : Transport) (recCall : String → Option String → GsiOut)
    (cache : Cache) (name : String) (real_name : Option String) : GsiOut :=
  if recTruthy (cacheGet cache name) then ⟨Outcome.ok (cacheGet cache name), cache, []⟩
  else
    match httpGet (t.srcinfo name) with
    | some text =>
      if text ≠ "" then
        let pkgname :=
          match real_name with
          | some rn => if rn = "" then name else rn
          | none => name
        let srcinfo := map_srcinfo text (some pkgname)
        if srcinfo ≠ [] then
          ⟨Outcome.ok (some srcinfo), cacheSet cache name srcinfo, [RemoteCall.srcinfoFetch name]⟩
        else ⟨Outcome.ok (some srcinfo), cache, [RemoteCall.srcinfoFetch name]⟩
      else gsiFallback t recCall cache name
    | none => gsiFallback t recCall cache name

/-- The method `AURClient.get_src_info(name, real_name)`: `gsiStep` tied through the
fallback recursion, with a fuel bound standing in for Python's unbounded
call stack. -/
def get_src_info (t : Transport) :
    Nat → Cache → String → Option String → GsiOut
  | 0, cache, _, _ => ⟨Outcome.diverge, cache, []⟩
  | fuel + 1, cache, name, real_name =>
    gsiStep t (fun b n => get_src_info t fuel cache b n) cache name real_name

/-- The six attribute names unioned by `extract_required_dependencies`,
for the architecture fixed by the `x86_64` constructor flag. -/
def depAttrs (x86_64 : Bool) : List String :=
  let arch := if x86_64 then "x86_64" else "i686"
  ["makedepends", "makedepends_" ++ arch,
   "depends", "depends_" ++ arch,
   "checkdepends", "checkdepends_" ++ arch]

/-- Python truthiness of a field value (`if srcinfo.get(attr):`). -/
def valTruthy : Val → Bool
  | Val.scalar s => decide (s ≠ "")
  | Val.vset l => decide (l ≠ [])
  | Val.vlist l => decide (l ≠ [])

/-- The elements obtained by iterating a field value, as
`deps.update(srcinfo[attr])` does: the items of a set or list, and the
single characters of a bare string. -/
def valElems : Val → List String
  | Val.scalar s => s.toList.map (fun c => String.mk [c])
  | Val.vset l => l
  | Val.vlist l => l

/-- The method `AURClient.extract_required_dependencies(srcinfo)`: the `deps` set,
modelled as a duplicate-free list. -/
def extract_required_dependencies (x86_64 : Bool) (srcinfo : Rec) : List String :=
  (depAttrs x86_64).foldl
    (fun deps attr =>
      match getR srcinfo attr with
      | some v => if valTruthy v then (valElems v).foldl addUnique deps else deps
      | none => deps)
    []

/-- The result of `get_required_dependencies`: the dependency set, the
raised `PackageNotFoundException(name)`, or fuel exhaustion of the inner
lookup. -/
inductive DepsResult : Type where
  | ok : List String → DepsResult
  | packageNotFound : String → DepsResult
  | diverge : DepsResult
deriving DecidableEq, Repr

/-- The method `AURClient.get_required_dependencies(name)` (lines 176–182). -/
def get_required_dependencies (t : Transport) (x86_64 : Bool) (fuel : Nat)
    (cache : Cache) (name : String) : DepsResult × Cache × List RemoteCall :=
  let o := get_src_info t fuel cache name none
  match o.result with
  | Outcome.diverge => (DepsResult.diverge, o.cache, o.calls)
  | Outcome.ok info =>
    if recTruthy info then
      (DepsResult.ok (extract_required_dependencies x86_64 (info.getD [])), o.cache, o.calls)
    else (DepsResult.packageNotFound name, o.cache, o.calls)

/-- Splitting at newlines: the worker of `res.text.split('\n')`. -/
def splitNlAux : List Char → List Char → List String
  | [], cur => [String.mk cur.reverse]
  | c :: rest, cur =>
    if c = '\n' then String.mk cur.reverse :: splitNlAux rest []
    else splitNlAux rest (c :: cur)

/-- The call `res.text.split('\n')`. -/
def splitNl (s : String) : List String :=
  splitNlAux s.toList []

/-- The method `AURClient.download_names` (lines 201–213): a connectivity failure is
caught (`except requests.exceptions.ConnectionError`) and, like an absent
or empty response, leads to the implicit `return None`. -/
def download_names (f : Fetch) : Option (List String) :=
  match httpGet f with
  | some text =>
    if text ≠ "" then
      some (((splitNl text).filter
          (fun n => decide (n ≠ "") && !(n.startsWith "#"))).foldl
        (fun acc n => addUnique acc (pyStrip n)) [])
    else none
  | none => none

/-- The method `AURClient.clean_caches`. -/
def clean_caches (_ : Cache) : Cache := []

/-- One client operation touching the `srcinfo_cache`. -/
inductive ClientOp : Type where
  | lookup : Nat → String → Option String → ClientOp
  | clearCache : ClientOp

/-- Running a sequence of lookups and cache clears against a transport,
tracking the cache. -/
def runOps (t : Transport) : List ClientOp → Cache → Cache
  | [], c => c
  | op :: rest, c =>
    runOps t rest
      (match op with
       | ClientOp.lookup fuel n rn => (get_src_info t fuel c n rn).cache
       | ClientOp.clearCache => clean_caches c)

/-! ## Helper lemmas: association lists and modelled sets -/

@[simp]
theorem getR_setR_self (r : Rec) (k : String) (v : Val) :
    getR (setR r k v) k = some v := by
  induction r with
  | nil => simp [setR, getR]
  | cons kv rest ih =>
    by_cases h : kv.1 = k
    · simp [setR, getR, h]
    · simp [setR, getR, h, ih]

theorem getR_setR_ne (r : Rec) (k k' : String) (v : Val) (h : k' ≠ k) :
    getR (setR r k v) k' = getR r k' := by
  induction r with
  | nil => simp [setR, getR, Ne.symm h]
  | cons kv rest ih =>
    by_cases hk : kv.1 = k
    · subst hk
      simp [setR, getR, Ne.symm h]
    · by_cases hk' : kv.1 = k'
      · simp [setR, getR, hk, hk', h]
      · simp [setR, getR, hk, hk', ih]

theorem setR_ne_nil (r : Rec) (k : String) (v : Val) : setR r k v ≠ [] := by
  cases r with
  | nil => simp [setR]
  | cons kv rest =>
    by_cases h : kv.1 = k <;> simp [setR, h]

theorem setR_append_of_getR_none (r : Rec) (k : String) (v : Val)
    (h : getR r k = none) : setR r k v = r ++ [(k, v)] := by
  induction r with
  | nil => simp [setR]
  | cons kv rest ih =>
    by_cases hk : kv.1 = k
    · simp [getR, hk] at h
    · simp only [getR, hk, if_neg] at h
      simp [setR, hk, ih h]

theorem setR_keys (r : Rec) (k : String) (v : Val) :
    ((setR r k v).map Prod.fst) = if getR r k = none then r.map Prod.fst ++ [k]
      else r.map Prod.fst := by
  induction r with
  | nil => simp [setR, getR]
  | cons kv rest ih =>
    by_cases hk : kv.1 = k
    · simp [setR, getR, hk]
    · simp only [setR, getR, hk, if_neg, ite_false, List.map_cons]
      rw [ih]
      by_cases h : getR rest k = none <;> simp [h]

theorem mem_addUnique {α : Type} [DecidableEq α] (l : List α) (a b : α) :
    a ∈ addUnique l b ↔ a ∈ l ∨ a = b := by
  by_cases h : b ∈ l
  · simp only [addUnique, if_pos h]
    constructor
    · exact fun ha => Or.inl ha
    · rintro (ha | rfl)
      · exact ha
      · exact h
  · simp [addUnique, h]

theorem addUnique_nodup {α : Type} [DecidableEq α] (l : List α) (b : α)
    (h : l.Nodup) : (addUnique l b).Nodup := by
  unfold addUnique
  by_cases hb : b ∈ l
  · simpa [hb]
  · simp [hb, List.nodup_append, h]

theorem mem_foldl_addUnique {α : Type} [DecidableEq α] (l acc : List α) (a : α) :
    a ∈ l.foldl addUnique acc ↔ a ∈ acc ∨ a ∈ l := by
  induction l generalizing acc with
  | nil => simp
  | cons x xs ih =>
    simp only [List.foldl_cons, ih, mem_addUnique, List.mem_cons]
    tauto

theorem foldl_addUnique_nodup {α : Type} [DecidableEq α] (l acc : List α)
    (h : acc.Nodup) : (l.foldl addUnique acc).Nodup := by
  induction l generalizing acc with
  | nil => simpa
  | cons x xs ih => exact ih _ (addUnique_nodup _ _ h)

theorem cacheGet_cacheSet_self (c : Cache) (k : String) (v : Rec) :
    cacheGet (cacheSet c k v) k = some v := by
  induction c with
  | nil => simp [cacheSet, cacheGet]
  | cons kv rest ih =>
    by_cases h : kv.1 = k
    · simp [cacheSet, cacheGet, h]
    · simp [cacheSet, cacheGet, h, ih]

theorem mem_cacheSet (c : Cache) (k : String) (v : Rec) (kv : String × Rec)
    (h : kv ∈ cacheSet c k v) : kv ∈ c ∨ kv = (k, v) := by
  induction c with
  | nil => simpa [cacheSet] using h
  | cons kv' rest ih =>
    by_cases hk : kv'.1 = k
    · simp only [cacheSet, hk, if_true, List.mem_cons] at h
      rcases h with h | h
      · right; exact h
      · left; exact List.mem_cons_of_mem _ h
    · simp only [cacheSet, hk, if_false, List.mem_cons] at h
      rcases h with h | h
      · left; exact h ▸ List.mem_cons_self _ _
      · rcases ih h with h' | h'
        · left; exact List.mem_cons_of_mem _ h'
        · right; exact h'

/-! ## Segmentation lemmas -/

theorem getR_eq_none_iff (b : Rec) (k : String) :
    getR b k = none ↔ k ∉ b.map Prod.fst := by
  induction b with
  | nil => simp [getR]
  | cons kv rest ih =>
    by_cases h : kv.1 = k
    · simp [getR, h]
    · simp [getR, h, ih, Ne.symm h]

theorem blockInsert_ne_nil (b : Rec) (k v : String) : blockInsert b k v ≠ [] := by
  unfold blockInsert
  cases getR b k with
  | none => exact setR_ne_nil _ _ _
  | some val => cases val <;> exact setR_ne_nil _ _ _

theorem procPair_not_boundary (fields : Option (List String)) (st : SegState)
    (p : String × String) (h : pyStrip p.1 ∉ keyFields) :
    procPair fields st p =
      if fieldsPass fields (pyStrip p.1) then
        ⟨st.subinfos, blockInsert st.subinfo (pyStrip p.1) (pyStrip p.2)⟩
      else st := by
  unfold procPair
  simp [h]

theorem foldl_procPair_no_boundary (pairs : List (String × String)) (st : SegState)
    (h : ∀ p ∈ pairs, pyStrip p.1 ∉ keyFields) :
    pairs.foldl (procPair none) st =
      ⟨st.subinfos,
        pairs.foldl (fun b p => blockInsert b (pyStrip p.1) (pyStrip p.2)) st.subinfo⟩ := by
  induction pairs generalizing st with
  | nil => rfl
  | cons p rest ih =>
    rw [List.foldl_cons, List.foldl_cons,
      procPair_not_boundary none st p (h p (List.mem_cons_self _ _))]
    simp only [fieldsPass, if_true]
    exact ih _ (fun q hq => h q (List.mem_cons_of_mem _ hq))

theorem foldl_blockInsert_fresh (pairs : List (String × String)) (b : Rec)
    (hdisj : ∀ p ∈ pairs, pyStrip p.1 ∉ b.map Prod.fst)
    (hnodup : (pairs.map (fun p => pyStrip p.1)).Nodup) :
    pairs.foldl (fun b p => blockInsert b (pyStrip p.1) (pyStrip p.2)) b =
      b ++ pairs.map (fun p =>
        (pyStrip p.1,
          if pyStrip p.1 ∈ KNOWN_LIST_FIELDS then Val.vset [pyStrip p.2]
          else Val.scalar (pyStrip p.2))) := by
  induction pairs generalizing b with
  | nil => simp
  | cons p rest ih =>
    have hnone : getR b (pyStrip p.1) = none :=
      (getR_eq_none_iff _ _).mpr (hdisj p (List.mem_cons_self _ _))
    have hstep : blockInsert b (pyStrip p.1) (pyStrip p.2) =
        b ++ [(pyStrip p.1,
          if pyStrip p.1 ∈ KNOWN_LIST_FIELDS then Val.vset [pyStrip p.2]
          else Val.scalar (pyStrip p.2))] := by
      unfold blockInsert
      rw [hnone, setR_append_of_getR_none _ _ _ hnone]
    rw [List.foldl_cons, hstep]
    simp only [List.map_cons, List.nodup_cons] at hnodup
    rw [ih _ ?_ hnodup.2, List.map_cons, List.append_assoc]
    · simp
    · intro q hq
      simp only [List.map_append, List.map_cons, List.mem_append]
      rintro (hmem | hmem)
      · exact hdisj q (List.mem_cons_of_mem _ hq) hmem
      · have : pyStrip q.1 = pyStrip p.1 := by simpa using hmem
        exact hnodup.1 (this ▸ List.mem_map_of_mem (fun r => pyStrip r.1) hq)

theorem segBlocks_length (pairs : List (String × String)) (st : SegState)
    (h : st.subinfo ≠ []) :
    (let st' := pairs.foldl (procPair none) st
     (if st'.subinfo ≠ [] then st'.subinfos ++ [st'.subinfo] else st'.subinfos).length) =
      st.subinfos.length + 1 +
        pairs.countP (fun p => decide (pyStrip p.1 ∈ keyFields)) := by
  induction pairs generalizing st with
  | nil => simp [h]
  | cons p rest ih =>
    by_cases hb : pyStrip p.1 ∈ keyFields
    · have hstep : procPair none st p =
          ⟨st.subinfos ++ [st.subinfo], [(pyStrip p.1, Val.scalar (pyStrip p.2))]⟩ := by
        unfold procPair
        simp [h, hb]
      simp only [List.foldl_cons, hstep]
      rw [ih _ (by simp)]
      simp [List.countP_cons, hb]
      omega
    · have hstep : procPair none st p =
          ⟨st.subinfos, blockInsert st.subinfo (pyStrip p.1) (pyStrip p.2)⟩ := by
        rw [procPair_not_boundary none st p hb]
        simp [fieldsPass]
      simp only [List.foldl_cons, hstep]
      rw [ih _ (blockInsert_ne_nil _ _ _)]
      simp [List.countP_cons, hb]

/-- C7 (claim): segmentation splits exactly at boundary keys seen when the
current block is non-empty; the first boundary key never splits; a
boundary-free document yields one block with all pairs in order; an empty
document yields no blocks. -/
theorem c7_segmentation :
    (∀ fields, mapSrcinfoBlocks [] fields = []) ∧
    (∀ pairs : List (String × String), pairs ≠ [] →
      (∀ p ∈ pairs, pyStrip p.1 ∉ keyFields) →
      (pairs.map (fun p => pyStrip p.1)).Nodup →
      mapSrcinfoBlocks pairs none =
        [pairs.map (fun p =>
          (pyStrip p.1,
            if pyStrip p.1 ∈ KNOWN_LIST_FIELDS then Val.vset [pyStrip p.2]
            else Val.scalar (pyStrip p.2)))]) ∧
    (∀ (p : String × String) (rest : List (String × String)),
      (mapSrcinfoBlocks (p :: rest) none).length =
        1 + rest.countP (fun q => decide (pyStrip q.1 ∈ keyFields))) := by
  refine ⟨fun fields => rfl, ?_, ?_⟩
  · intro pairs hne hnb hnd
    unfold mapSrcinfoBlocks
    rw [foldl_procPair_no_boundary pairs ⟨[], []⟩ hnb]
    rw [foldl_blockInsert_fresh pairs [] (by simp) hnd]
    simp only [List.nil_append]
    have : pairs.map (fun p =>
        (pyStrip p.1,
          if pyStrip p.1 ∈ KNOWN_LIST_FIELDS then Val.vset [pyStrip p.2]
          else Val.scalar (pyStrip p.2))) ≠ [] := by
      simpa using hne
    simp [this]
  · intro p rest
    unfold mapSrcinfoBlocks
    have hfirst : procPair none ⟨[], []⟩ p =
        ⟨[], blockInsert [] (pyStrip p.1) (pyStrip p.2)⟩ := by
      unfold procPair
      simp [fieldsPass]
    rw [List.foldl_cons, hfirst]
    have := segBlocks_length rest ⟨[], blockInsert [] (pyStrip p.1) (pyStrip p.2)⟩
      (by
        show blockInsert [] (pyStrip p.1) (pyStrip p.2) ≠ []
        exact blockInsert_ne_nil _ _ _)
    simpa using this

/-- Witness for C7 at a concrete pair sequence: a boundary-free document
gives one ordered block, and a document whose first pair is a boundary key
splits only at the later boundary pairs. -/
theorem c7_segmentation_witness :
    mapSrcinfoBlocks [("url", "u"), ("depends", "d")] none =
      [[("url", Val.scalar "u"), ("depends", Val.vset ["d"])]] ∧
    (mapSrcinfoBlocks
        [("pkgbase", "b"), ("pkgname", "x"), ("url", "u"), ("pkgname", "y")] none).length =
      3 := by
  constructor
  · have h := c7_segmentation.2.1 [("url", "u"), ("depends", "d")]
      (by decide) (by decide) (by decide)
    simpa using h
  · have h := c7_segmentation.2.2 ("pkgbase", "b")
      [("pkgname", "x"), ("url", "u"), ("pkgname", "y")]
    simpa using h

/-! ## Per-key evolution of a block value -/

/-- The effect of `blockInsert` on the value stored at its own key. -/
def updVal (k : String) : Option Val → String → Option Val
  | none, v => some (if k ∈ KNOWN_LIST_FIELDS then Val.vset [v] else Val.scalar v)
  | some (Val.scalar s), v => some (Val.vset (addUnique [s] v))
  | some (Val.vset l), v => some (Val.vset (addUnique l v))
  | some (Val.vlist l), v => some (Val.vset (addUnique l v))

theorem getR_blockInsert (b : Rec) (k' v k : String) :
    getR (blockInsert b k' v) k =
      if k' = k then updVal k (getR b k) v else getR b k := by
  by_cases h : k' = k
  · subst h
    unfold blockInsert updVal
    cases hg : getR b k' with
    | none => simp [hg, getR_setR_self]
    | some val => cases val <;> simp [getR_setR_self]
  · unfold blockInsert
    cases hg : getR b k' with
    | none => simp [h, getR_setR_ne _ _ _ _ (Ne.symm h)]
    | some val => cases val <;> simp [h, getR_setR_ne _ _ _ _ (Ne.symm h)]

theorem getR_foldl_blockInsert (pairs : List (String × String)) (b : Rec) (k : String) :
    getR (pairs.foldl (fun b p => blockInsert b (pyStrip p.1) (pyStrip p.2)) b) k =
      ((pairs.filter (fun p => decide (pyStrip p.1 = k))).map
          (fun p => pyStrip p.2)).foldl (updVal k) (getR b k) := by
  induction pairs generalizing b with
  | nil => rfl
  | cons p rest ih =>
    rw [List.foldl_cons, ih, getR_blockInsert]
    by_cases h : pyStrip p.1 = k
    · simp [h, List.filter_cons]
    · simp [h, List.filter_cons]

theorem foldl_updVal_vset (k : String) (l : List String) (vs : List String) :
    vs.foldl (updVal k) (some (Val.vset l)) =
      some (Val.vset (vs.foldl addUnique l)) := by
  induction vs generalizing l with
  | nil => rfl
  | cons v rest ih => simpa [updVal] using ih (addUnique l v)

/-- The value at a key after a block has absorbed the list `vs` of values
declared for it: absent for no value; a scalar (or a one-element set for an
always-multi-valued field) for one value; the duplicate-free set of the
values for two or more. -/
theorem foldl_updVal_char (k : String) (vs : List String) :
    vs.foldl (updVal k) none =
      match vs with
      | [] => none
      | [v] => some (if k ∈ KNOWN_LIST_FIELDS then Val.vset [v] else Val.scalar v)
      | v :: rest => some (Val.vset (rest.foldl addUnique [v])) := by
  match vs with
  | [] => rfl
  | [v] => rfl
  | v :: v' :: rest =>
    by_cases h : k ∈ KNOWN_LIST_FIELDS
    · simp only [List.foldl_cons, updVal, h, if_pos]
      rw [foldl_updVal_vset]
    · simp only [List.foldl_cons, updVal, h, if_neg, ite_false]
      rw [foldl_updVal_vset]

/-! ## Key sets and well-formedness of blocks -/

theorem mem_setR (r : Rec) (k : String) (v : Val) (kv : String × Val)
    (h : kv ∈ setR r k v) : kv ∈ r ∨ kv = (k, v) := by
  induction r with
  | nil => simpa [setR] using h
  | cons kv' rest ih =>
    by_cases hk : kv'.1 = k
    · simp only [setR, hk, if_true, List.mem_cons] at h
      rcases h with h | h
      · right; exact h
      · left; exact List.mem_cons_of_mem _ h
    · simp only [setR, hk, if_false, List.mem_cons] at h
      rcases h with h | h
      · left; exact h ▸ List.mem_cons_self _ _
      · rcases ih h with h' | h'
        · left; exact List.mem_cons_of_mem _ h'
        · right; exact h'

theorem getR_mem (r : Rec) (k : String) (v : Val) (h : getR r k = some v) :
    (k, v) ∈ r := by
  induction r with
  | nil => simp [getR] at h
  | cons kv rest ih =>
    by_cases hk : kv.1 = k
    · simp only [getR, hk, if_true, Option.some.injEq] at h
      subst h
      rw [← hk]
      exact List.mem_cons_self _ _
    · simp only [getR, hk, if_false] at h
      exact List.mem_cons_of_mem _ (ih h)

theorem blockInsert_keys_nodup (b : Rec) (k v : String)
    (h : (b.map Prod.fst).Nodup) : ((blockInsert b k v).map Prod.fst).Nodup := by
  unfold blockInsert
  cases hg : getR b k with
  | none =>
    rw [setR_keys, if_pos hg]
    have : k ∉ b.map Prod.fst := (getR_eq_none_iff _ _).mp hg
    simp [List.nodup_append, h, this]
  | some val =>
    cases val <;>
      · rw [setR_keys, if_neg (by simp [hg])]
        exact h

/-! ## A block with no `pkgname` entry never filters the merge -/

theorem subinfoPkgnames_mem (subinfos : List Rec) (v : Val) :
    v ∈ subinfoPkgnames subinfos ↔ ∃ s ∈ subinfos, getR s "pkgname" = some v := by
  unfold subinfoPkgnames
  rw [mem_foldl_addUnique]
  simp [List.mem_filterMap]

/-! ## The always-multi-valued invariant through the pipeline -/

/-- Every entry of a record at an always-multi-valued field name holds a
set. -/
def knownOk (r : Rec) : Prop :=
  ∀ kv ∈ r, kv.1 ∈ KNOWN_LIST_FIELDS → ∃ l, kv.2 = Val.vset l

theorem keyFields_not_known : ∀ k ∈ keyFields, k ∉ KNOWN_LIST_FIELDS := by decide

theorem knownOk_nil : knownOk [] := by
  intro kv h
  simp at h

theorem knownOk_blockInsert (b : Rec) (k v : String) (h : knownOk b) :
    knownOk (blockInsert b k v) := by
  unfold blockInsert
  cases hg : getR b k with
  | none =>
    intro kv hmem hknown
    rcases mem_setR _ _ _ _ hmem with hmem | rfl
    · exact h kv hmem hknown
    · simp only at hknown
      simp [hknown]
  | some val =>
    cases val <;>
      · intro kv hmem hknown
        rcases mem_setR _ _ _ _ hmem with hmem | rfl
        · exact h kv hmem hknown
        · exact ⟨_, rfl⟩

theorem foldl_procPair_knownOk (fields : Option (List String))
    (pairs : List (String × String)) (st : SegState)
    (h1 : ∀ b ∈ st.subinfos, knownOk b) (h2 : knownOk st.subinfo) :
    (∀ b ∈ (pairs.foldl (procPair fields) st).subinfos, knownOk b) ∧
      knownOk (pairs.foldl (procPair fields) st).subinfo := by
  induction pairs generalizing st with
  | nil => exact ⟨h1, h2⟩
  | cons p rest ih =>
    rw [List.foldl_cons]
    unfold procPair
    by_cases hb : st.subinfo ≠ [] ∧ pyStrip p.1 ∈ keyFields
    · rw [if_pos hb]
      refine ih _ ?_ ?_
      · intro b hmem
        rcases List.mem_append.mp hmem with hmem | hmem
        · exact h1 b hmem
        · rw [List.mem_singleton.mp hmem]
          exact h2
      · intro kv hmem hknown
        rw [List.mem_singleton.mp hmem] at hknown
        exact absurd hknown (keyFields_not_known _ hb.2)
    · rw [if_neg hb]
      by_cases hf : fieldsPass fields (pyStrip p.1)
      · rw [if_pos hf]
        exact ih _ h1 (knownOk_blockInsert _ _ _ h2)
      · rw [if_neg hf]
        exact ih _ h1 h2

theorem mapSrcinfoBlocks_knownOk (pairs : List (String × String))
    (fields : Option (List String)) :
    ∀ b ∈ mapSrcinfoBlocks pairs fields, knownOk b := by
  unfold mapSrcinfoBlocks
  have h := foldl_procPair_knownOk fields pairs ⟨[], []⟩ (by simp) knownOk_nil
  by_cases hc : (pairs.foldl (procPair fields) ⟨[], []⟩).subinfo ≠ []
  · rw [if_pos hc]
    intro b hmem
    rcases List.mem_append.mp hmem with hmem | hmem
    · exact h.1 b hmem
    · rw [List.mem_singleton.mp hmem]
      exact h.2
  · rw [if_neg hc]
    exact h.1

theorem knownOk_mergeInsert (fields : Option (List String)) (info : Rec)
    (kv : String × Val) (hinfo : knownOk info)
    (hkv : kv.1 ∈ KNOWN_LIST_FIELDS → ∃ l, kv.2 = Val.vset l) :
    knownOk (mergeInsert fields info kv) := by
  unfold mergeInsert
  by_cases hf : fieldsPass fields kv.1
  · rw [if_pos hf]
    cases hg : getR info kv.1 with
    | none =>
      intro kv' hmem hknown
      rcases mem_setR _ _ _ _ hmem with hmem | rfl
      · exact hinfo kv' hmem hknown
      · exact hkv hknown
    | some cv =>
      intro kv' hmem hknown
      rcases mem_setR _ _ _ _ hmem with hmem | rfl
      · exact hinfo kv' hmem hknown
      · exact ⟨_, rfl⟩
  · rw [if_neg hf]
    exact hinfo

theorem foldl_mergeInsert_knownOk (fields : Option (List String)) :
    ∀ b info : Rec, knownOk info → knownOk b →
      knownOk (b.foldl (mergeInsert fields) info) := by
  intro b
  induction b with
  | nil => exact fun info hinfo _ => hinfo
  | cons kv rest ih =>
    intro info hinfo hb
    rw [List.foldl_cons]
    exact ih _
      (knownOk_mergeInsert fields info kv hinfo (hb kv (List.mem_cons_self _ _)))
      (fun kv' h hk => hb kv' (List.mem_cons_of_mem _ h) hk)

theorem merge_fold_knownOk (fields : Option (List String)) (pkgname : Option String)
    (subinfos : List Rec) (info : Rec)
    (hs : ∀ b ∈ subinfos, knownOk b) (hinfo : knownOk info) :
    knownOk (subinfos.foldl
      (fun info subinfo =>
        if mergeCond pkgname subinfo then subinfo.foldl (mergeInsert fields) info
        else info) info) := by
  induction subinfos generalizing info with
  | nil => exact hinfo
  | cons b rest ih =>
    rw [List.foldl_cons]
    refine ih _ (fun b' hb' => hs b' (List.mem_cons_of_mem _ hb')) ?_
    by_cases hc : mergeCond pkgname b
    · rw [if_pos hc]
      exact foldl_mergeInsert_knownOk fields b info hinfo (hs b (List.mem_cons_self _ _))
    · rw [if_neg hc]
      exact hinfo

theorem getR_finalizeRec (r : Rec) (k : String) :
    getR (finalizeRec r) k =
      Option.map
        (fun v => match v with | Val.vset l => Val.vlist l | v => v)
        (getR r k) := by
  induction r with
  | nil => rfl
  | cons kv rest ih =>
    by_cases h : kv.1 = k
    · cases hv : kv.2 <;> simp [finalizeRec, getR, hv, h]
    · cases hv : kv.2 <;>
        · simp only [finalizeRec, getR, hv, h, if_false, List.map_cons]
          exact ih

/-- C2 coupling of `merge_subinfos` with `knownOk`: a present
always-multi-valued field of the merge result is a materialized list. -/
theorem merge_subinfos_known_vlist (subinfos : List Rec) (pkgname : Option String)
    (fields : Option (List String)) (hs : ∀ b ∈ subinfos, knownOk b)
    (k : String) (hk : k ∈ KNOWN_LIST_FIELDS) (v : Val)
    (hget : getR (merge_subinfos subinfos pkgname fields) k = some v) :
    ∃ l, v = Val.vlist l := by
  unfold merge_subinfos at hget
  rw [getR_finalizeRec] at hget
  cases hg : getR (subinfos.foldl
      (fun info subinfo =>
        if mergeCond pkgname subinfo then subinfo.foldl (mergeInsert fields) info
        else info) []) k with
  | none => rw [hg] at hget; simp at hget
  | some v0 =>
    rw [hg] at hget
    have hko := merge_fold_knownOk fields pkgname subinfos [] hs knownOk_nil
    obtain ⟨l, rfl⟩ := hko (k, v0) (getR_mem _ _ _ hg) hk
    exact ⟨l, (Option.some.inj hget).symm⟩

/-! ## Merging a single boundary-free block -/

theorem foldl_blockInsert_ne_nil (pairs : List (String × String)) (b : Rec)
    (h : b ≠ [] ∨ pairs ≠ []) :
    pairs.foldl (fun b p => blockInsert b (pyStrip p.1) (pyStrip p.2)) b ≠ [] := by
  induction pairs generalizing b with
  | nil => simpa using h.resolve_right (by simp)
  | cons p rest ih =>
    rw [List.foldl_cons]
    exact ih _ (Or.inl (blockInsert_ne_nil _ _ _))

theorem foldl_blockInsert_keys_nodup (pairs : List (String × String)) (b : Rec)
    (h : (b.map Prod.fst).Nodup) :
    ((pairs.foldl (fun b p => blockInsert b (pyStrip p.1) (pyStrip p.2)) b).map
      Prod.fst).Nodup := by
  induction pairs generalizing b with
  | nil => exact h
  | cons p rest ih =>
    rw [List.foldl_cons]
    exact ih _ (blockInsert_keys_nodup _ _ _ h)

theorem seg_single_block (pairs : List (String × String)) (hne : pairs ≠ [])
    (hnb : ∀ p ∈ pairs, pyStrip p.1 ∉ keyFields) :
    mapSrcinfoBlocks pairs none =
      [pairs.foldl (fun b p => blockInsert b (pyStrip p.1) (pyStrip p.2)) []] := by
  unfold mapSrcinfoBlocks
  rw [foldl_procPair_no_boundary pairs ⟨[], []⟩ hnb]
  simp [foldl_blockInsert_ne_nil pairs [] (Or.inr hne)]

theorem foldl_mergeInsert_fresh (b : Rec) : ∀ info : Rec,
    (∀ kv ∈ b, kv.1 ∉ info.map Prod.fst) → (b.map Prod.fst).Nodup →
    b.foldl (mergeInsert none) info = info ++ b := by
  induction b with
  | nil => simp
  | cons kv rest ih =>
    intro info hdisj hnodup
    have hnone : getR info kv.1 = none :=
      (getR_eq_none_iff _ _).mpr (hdisj kv (List.mem_cons_self _ _))
    have hstep : mergeInsert none info kv = info ++ [kv] := by
      unfold mergeInsert
      rw [hnone]
      simp only [fieldsPass, if_true]
      exact setR_append_of_getR_none _ _ _ hnone
    simp only [List.map_cons, List.nodup_cons] at hnodup
    rw [List.foldl_cons, hstep, ih _ ?_ hnodup.2, List.append_assoc, List.singleton_append]
    intro kv' hkv'
    simp only [List.map_append, List.map_cons, List.mem_append]
    rintro (hmem | hmem)
    · exact hdisj kv' (List.mem_cons_of_mem _ hkv') hmem
    · have heq : kv'.1 = kv.1 := by simpa using hmem
      exact hnodup.1 (heq ▸ List.mem_map_of_mem Prod.fst hkv')

theorem mergeTarget_no_pkgname (b : Rec) (h : getR b "pkgname" = none)
    (tgt : Option String) : mergeTarget [b] tgt = none := by
  cases tgt with
  | none => rfl
  | some p =>
    show (if p = "" ∨ (subinfoPkgnames [b]).length = 1 ∨
        Val.scalar p ∉ subinfoPkgnames [b] then none else some p) = none
    rw [if_pos]
    right; right
    rw [subinfoPkgnames_mem]
    rintro ⟨s, hs, hget⟩
    rw [List.mem_singleton.mp hs, h] at hget
    exact Option.noConfusion hget

theorem mergeForName_single (b : Rec) (hpk : getR b "pkgname" = none)
    (hnd : (b.map Prod.fst).Nodup) (tgt : Option String) :
    mergeForName [b] tgt none = finalizeRec b := by
  unfold mergeForName
  rw [mergeTarget_no_pkgname b hpk tgt]
  show finalizeRec (b.foldl (mergeInsert none) []) = finalizeRec b
  rw [foldl_mergeInsert_fresh b [] (by simp) hnd, List.nil_append]

/-- C2 (claim): present always-multi-valued fields of a merged record are
collections even with a single value; a field given two distinct values in
one sub-package scope ends as a two-element collection with duplicates
collapsed; neither is ever a bare scalar. -/
theorem c2_field_collections :
    (∀ (doc : String) (target : Option String) (fields : Option (List String))
      (k : String), k ∈ KNOWN_LIST_FIELDS →
      ∀ v, getR (map_srcinfo doc target fields) k = some v → ∃ l, v = Val.vlist l) ∧
    (∀ (doc : String) (target : Option String) (k a b : String),
      (∀ p ∈ findAll doc, pyStrip p.1 ∉ keyFields) → a ≠ b →
      a ∈ (((findAll doc).filter (fun p => decide (pyStrip p.1 = k))).map
          (fun p => pyStrip p.2)) →
      b ∈ (((findAll doc).filter (fun p => decide (pyStrip p.1 = k))).map
          (fun p => pyStrip p.2)) →
      (∀ x ∈ (((findAll doc).filter (fun p => decide (pyStrip p.1 = k))).map
          (fun p => pyStrip p.2)), x = a ∨ x = b) →
      ∃ L, getR (map_srcinfo doc target none) k = some (Val.vlist L) ∧
        L.length = 2 ∧ ∀ x, x ∈ L ↔ x = a ∨ x = b) ∧
    (∀ (doc : String) (target : Option String) (k v : String),
      (∀ p ∈ findAll doc, pyStrip p.1 ∉ keyFields) → k ∈ KNOWN_LIST_FIELDS →
      (((findAll doc).filter (fun p => decide (pyStrip p.1 = k))).map
          (fun p => pyStrip p.2)) = [v] →
      getR (map_srcinfo doc target none) k = some (Val.vlist [v])) := by
  refine ⟨?_, ?_, ?_⟩
  · intro doc target fields k hk v hget
    unfold map_srcinfo mergeForName at hget
    exact merge_subinfos_known_vlist _ _ _
      (mapSrcinfoBlocks_knownOk (findAll doc) fields) k hk v hget
  · intro doc target k a b hnb hab ha hb hall
    have hvne : (((findAll doc).filter (fun p => decide (pyStrip p.1 = k))).map
        (fun p => pyStrip p.2)) ≠ [] := by
      intro h
      rw [h] at ha
      exact absurd ha (List.not_mem_nil a)
    have hpne : findAll doc ≠ [] := by
      intro h
      rw [h] at hvne
      exact hvne rfl
    unfold map_srcinfo
    rw [seg_single_block (findAll doc) hpne hnb,
      mergeForName_single _ ?hpk (foldl_blockInsert_keys_nodup _ _ (by simp)) target,
      getR_finalizeRec, getR_foldl_blockInsert]
    case hpk =>
      rw [getR_foldl_blockInsert]
      have hfil : ((findAll doc).filter (fun p => decide (pyStrip p.1 = "pkgname"))) = [] := by
        rw [List.filter_eq_nil_iff]
        intro p hp
        simp only [decide_eq_true_eq]
        intro heq
        exact hnb p hp (heq ▸ (by decide : "pkgname" ∈ keyFields))
      rw [hfil]
      rfl
    simp only [getR]
    rcases hvals : (((findAll doc).filter (fun p => decide (pyStrip p.1 = k))).map
        (fun p => pyStrip p.2)) with _ | ⟨v0, vs⟩
    · exact absurd hvals hvne
    · rcases vs with _ | ⟨v1, vs'⟩
      · rw [hvals] at ha hb
        have ha' := List.mem_singleton.mp ha
        have hb' := List.mem_singleton.mp hb
        exact absurd (ha'.trans hb'.symm) hab
      · rw [hvals, foldl_updVal_char]
        have hnd : ((v1 :: vs').foldl addUnique [v0]).Nodup :=
          foldl_addUnique_nodup _ _ (List.nodup_singleton v0)
        have hmem : ∀ x, x ∈ (v1 :: vs').foldl addUnique [v0] ↔ x = a ∨ x = b := by
          intro x
          constructor
          · intro hx
            refine hall x ?_
            rw [hvals]
            rcases (mem_foldl_addUnique (v1 :: vs') [v0] x).mp hx with h | h
            · exact (List.mem_singleton.mp h) ▸ List.mem_cons_self _ _
            · exact List.mem_cons_of_mem _ h
          · intro hx
            refine (mem_foldl_addUnique (v1 :: vs') [v0] x).mpr ?_
            have hx' : x ∈ v0 :: v1 :: vs' := by
              rw [← hvals]
              rcases hx with rfl | rfl
              · exact ha
              · exact hb
            rcases List.mem_cons.mp hx' with h | h
            · exact Or.inl (by simp [h])
            · exact Or.inr h
        refine ⟨(v1 :: vs').foldl addUnique [v0], rfl, ?_, hmem⟩
        have hfin : ((v1 :: vs').foldl addUnique [v0]).toFinset = {a, b} := by
          ext x
          rw [List.mem_toFinset, hmem x]
          simp
        calc ((v1 :: vs').foldl addUnique [v0]).length
            = ((v1 :: vs').foldl addUnique [v0]).toFinset.card :=
              (List.toFinset_card_of_nodup hnd).symm
          _ = ({a, b} : Finset String).card := by rw [hfin]
          _ = 2 := by
              rw [Finset.card_insert_of_not_mem (by simpa using hab),
                Finset.card_singleton]
  · intro doc target k v hnb hk hvals
    have hpne : findAll doc ≠ [] := by
      intro h
      rw [h] at hvals
      exact List.noConfusion hvals
    unfold map_srcinfo
    rw [seg_single_block (findAll doc) hpne hnb,
      mergeForName_single _ ?hpk2 (foldl_blockInsert_keys_nodup _ _ (by simp)) target,
      getR_finalizeRec, getR_foldl_blockInsert]
    case hpk2 =>
      rw [getR_foldl_blockInsert]
      have hfil : ((findAll doc).filter (fun p => decide (pyStrip p.1 = "pkgname"))) = [] := by
        rw [List.filter_eq_nil_iff]
        intro p hp
        simp only [decide_eq_true_eq]
        intro heq
        exact hnb p hp (heq ▸ (by decide : "pkgname" ∈ keyFields))
      rw [hfil]
      rfl
    simp only [getR]
    rw [hvals, foldl_updVal_char]
    simp [hk]

/-- Witness for C2 at a concrete document: `myfield` receives `a` then `b`
and ends as the two-element list; `validpgpkeys` (always multi-valued)
receives one value and still ends as a one-element list. -/
theorem c2_field_collections_witness :
    (∃ L, getR (map_srcinfo "myfield = a\nmyfield = b\nvalidpgpkeys = K\n" none none)
        "myfield" = some (Val.vlist L) ∧ L.length = 2 ∧
        ∀ x, x ∈ L ↔ x = "a" ∨ x = "b") ∧
    getR (map_srcinfo "myfield = a\nmyfield = b\nvalidpgpkeys = K\n" none none)
        "validpgpkeys" = some (Val.vlist ["K"]) := by
  constructor
  · exact c2_field_collections.2.1 "myfield = a\nmyfield = b\nvalidpgpkeys = K\n"
      none "myfield" "a" "b" (by decide) (by decide) (by decide) (by decide)
      (by decide)
  · exact c2_field_collections.2.2 "myfield = a\nmyfield = b\nvalidpgpkeys = K\n"
      none "validpgpkeys" "K" (by decide) (by decide) (by decide)

/-! ## Which blocks the merge folds -/

theorem foldl_filter_cond {α β : Type} (q : α → Bool) (f : β → α → β)
    (l : List α) (init : β) :
    (l.filter q).foldl f init =
      l.foldl (fun acc x => if q x then f acc x else acc) init := by
  induction l generalizing init with
  | nil => rfl
  | cons x xs ih =>
    by_cases h : q x
    · rw [List.filter_cons_of_pos h, List.foldl_cons, List.foldl_cons, if_pos h, ih]
    · rw [List.filter_cons_of_neg (by simpa using h), List.foldl_cons, if_neg h, ih]

theorem mergeTarget_some (subinfos : List Rec) (p : String) :
    mergeTarget subinfos (some p) =
      if p = "" ∨ (subinfoPkgnames subinfos).length = 1 ∨
          Val.scalar p ∉ subinfoPkgnames subinfos then none
      else some p := rfl

theorem merge_subinfos_eq_filter (subinfos : List Rec) (p : String)
    (fields : Option (List String)) (hp : p ≠ "") :
    merge_subinfos subinfos (some p) fields =
      merge_subinfos (subinfos.filter (fun b =>
        decide (getR b "pkgname" = none) ||
          decide (getR b "pkgname" = some (Val.scalar p)))) none fields := by
  unfold merge_subinfos
  congr 1
  rw [foldl_filter_cond]
  refine List.foldl_ext _ _ _ ?_
  intro acc x _
  have hcond : mergeCond (some p) x =
      (decide (getR x "pkgname" = none) ||
        decide (getR x "pkgname" = some (Val.scalar p))) := by
    unfold mergeCond
    simp [hp]
  rw [hcond]
  cases h : (decide (getR x "pkgname" = none) ||
      decide (getR x "pkgname" = some (Val.scalar p))) with
  | true => simp [mergeCond]
  | false => simp

theorem subinfoPkgnames_length_one (subinfos : List Rec)
    (h : (subinfoPkgnames subinfos).length = 1) :
    ∀ v w, v ∈ subinfoPkgnames subinfos → w ∈ subinfoPkgnames subinfos → v = w := by
  intro v w hv hw
  rcases hy : subinfoPkgnames subinfos with _ | ⟨y, ys⟩
  · rw [hy] at hv
    exact absurd hv (List.not_mem_nil v)
  · rw [hy] at h hv hw
    simp only [List.length_cons, Nat.add_left_eq_self, List.length_eq_zero] at h
    subst h
    exact (List.mem_singleton.mp hv).trans (List.mem_singleton.mp hw).symm

/-- C1 (claim): with a given target name, the merge folds exactly the
blocks whose `pkgname` equals the target or which carry none; when no
block's `pkgname` equals the target, the merge degrades to folding every
block. -/
theorem c1_merge_block_selection :
    ∀ (subinfos : List Rec) (p : String) (fields : Option (List String)), p ≠ "" →
      ((∃ b ∈ subinfos, getR b "pkgname" = some (Val.scalar p)) →
        mergeForName subinfos (some p) fields =
          merge_subinfos (subinfos.filter (fun b =>
            decide (getR b "pkgname" = none) ||
              decide (getR b "pkgname" = some (Val.scalar p)))) none fields) ∧
      ((∀ b ∈ subinfos, getR b "pkgname" ≠ some (Val.scalar p)) →
        mergeForName subinfos (some p) fields = merge_subinfos subinfos none fields) := by
  intro subinfos p fields hp
  constructor
  · rintro ⟨b0, hb0, hget0⟩
    have hpmem : Val.scalar p ∈ subinfoPkgnames subinfos :=
      (subinfoPkgnames_mem _ _).mpr ⟨b0, hb0, hget0⟩
    unfold mergeForName
    rw [mergeTarget_some]
    by_cases hlen : (subinfoPkgnames subinfos).length = 1
    · rw [if_pos (Or.inr (Or.inl hlen))]
      have hall : ∀ b ∈ subinfos,
          (decide (getR b "pkgname" = none) ||
            decide (getR b "pkgname" = some (Val.scalar p))) = true := by
        intro b hb
        cases hg : getR b "pkgname" with
        | none => simp
        | some v =>
          have hv : v ∈ subinfoPkgnames subinfos :=
            (subinfoPkgnames_mem _ _).mpr ⟨b, hb, hg⟩
          have := subinfoPkgnames_length_one subinfos hlen v (Val.scalar p) hv hpmem
          simp [this]
      rw [List.filter_eq_self.mpr hall]
    · rw [if_neg (by
        rintro (h | h | h)
        · exact hp h
        · exact hlen h
        · exact h hpmem)]
      exact merge_subinfos_eq_filter subinfos p fields hp
  · intro hnone
    have hnmem : Val.scalar p ∉ subinfoPkgnames subinfos := by
      rw [subinfoPkgnames_mem]
      rintro ⟨s, hs, hget⟩
      exact hnone s hs hget
    unfold mergeForName
    rw [mergeTarget_some, if_pos (Or.inr (Or.inr hnmem))]

/-- Witness for C1 at a concrete block list: with target `y`, the block of
sub-package `x` is excluded while the shared block is kept; with an absent
target name `z`, all blocks are folded. -/
theorem c1_merge_block_selection_witness :
    mergeForName
        [[("pkgbase", Val.scalar "b"), ("url", Val.scalar "u")],
         [("pkgname", Val.scalar "x"), ("depends", Val.vset ["dx"])],
         [("pkgname", Val.scalar "y"), ("depends", Val.vset ["dy"])]]
        (some "y") none =
      merge_subinfos
        [[("pkgbase", Val.scalar "b"), ("url", Val.scalar "u")],
         [("pkgname", Val.scalar "y"), ("depends", Val.vset ["dy"])]]
        none none ∧
    mergeForName
        [[("pkgbase", Val.scalar "b"), ("url", Val.scalar "u")],
         [("pkgname", Val.scalar "x"), ("depends", Val.vset ["dx"])]]
        (some "z") none =
      merge_subinfos
        [[("pkgbase", Val.scalar "b"), ("url", Val.scalar "u")],
         [("pkgname", Val.scalar "x"), ("depends", Val.vset ["dx"])]]
        none none := by
  constructor
  · have h := (c1_merge_block_selection
        [[("pkgbase", Val.scalar "b"), ("url", Val.scalar "u")],
         [("pkgname", Val.scalar "x"), ("depends", Val.vset ["dx"])],
         [("pkgname", Val.scalar "y"), ("depends", Val.vset ["dy"])]]
        "y" none (by decide)).1
      (by
        refine ⟨[("pkgname", Val.scalar "y"), ("depends", Val.vset ["dy"])], ?_, ?_⟩
        · simp
        · rfl)
    rw [h]
    rfl
  · exact (c1_merge_block_selection
        [[("pkgbase", Val.scalar "b"), ("url", Val.scalar "u")],
         [("pkgname", Val.scalar "x"), ("depends", Val.vset ["dx"])]]
        "z" none (by decide)).2 (by decide)

/-! ## Dependency extraction -/

theorem mem_depsFold (r : Rec) : ∀ (attrs : List String) (acc : List String) (d : String),
    (d ∈ attrs.foldl
        (fun deps attr =>
          match getR r attr with
          | some v => if valTruthy v then (valElems v).foldl addUnique deps else deps
          | none => deps)
        acc) ↔
      d ∈ acc ∨ ∃ a ∈ attrs, ∃ v, getR r a = some v ∧ valTruthy v = true ∧
        d ∈ valElems v := by
  intro attrs
  induction attrs with
  | nil => simp
  | cons a rest ih =>
    intro acc d
    rw [List.foldl_cons]
    cases hg : getR r a with
    | none =>
      rw [ih]
      constructor
      · rintro (h | ⟨a', ha', hv⟩)
        · exact Or.inl h
        · exact Or.inr ⟨a', List.mem_cons_of_mem _ ha', hv⟩
      · rintro (h | ⟨a', ha', v, hv, ht, hd⟩)
        · exact Or.inl h
        · rcases List.mem_cons.mp ha' with rfl | ha'
          · rw [hg] at hv
            exact absurd hv (by simp)
          · exact Or.inr ⟨a', ha', v, hv, ht, hd⟩
    | some v =>
      have hred : (match some v with
          | some v => if valTruthy v = true then List.foldl addUnique acc (valElems v)
            else acc
          | none => acc) =
          if valTruthy v = true then List.foldl addUnique acc (valElems v) else acc := rfl
      by_cases ht : valTruthy v = true
      · rw [ih, hred, if_pos ht]
        constructor
        · rintro (h | ⟨a', ha', hv⟩)
          · rcases (mem_foldl_addUnique _ _ _).mp h with h | h
            · exact Or.inl h
            · exact Or.inr ⟨a, List.mem_cons_self _ _, v, hg, ht, h⟩
          · exact Or.inr ⟨a', List.mem_cons_of_mem _ ha', hv⟩
        · rintro (h | ⟨a', ha', v', hv', ht', hd⟩)
          · exact Or.inl ((mem_foldl_addUnique _ _ _).mpr (Or.inl h))
          · rcases List.mem_cons.mp ha' with rfl | ha'
            · rw [hg] at hv'
              have : v' = v := (Option.some.inj hv').symm
              subst this
              exact Or.inl ((mem_foldl_addUnique _ _ _).mpr (Or.inr hd))
            · exact Or.inr ⟨a', ha', v', hv', ht', hd⟩
      · rw [ih, hred, if_neg ht]
        constructor
        · rintro (h | ⟨a', ha', hv⟩)
          · exact Or.inl h
          · exact Or.inr ⟨a', List.mem_cons_of_mem _ ha', hv⟩
        · rintro (h | ⟨a', ha', v', hv', ht', hd⟩)
          · exact Or.inl h
          · rcases List.mem_cons.mp ha' with rfl | ha'
            · rw [hg] at hv'
              have : v' = v := (Option.some.inj hv').symm
              subst this
              exact absurd ht' ht
            · exact Or.inr ⟨a', ha', v', hv', ht', hd⟩

/-- C8 (claim): extraction returns exactly the union of the truthy
dependency fields of the fixed architecture, skipping absent fields;
other-architecture fields are ignored, a bare `depends` counts for either
architecture, and a record with none of the fields gives the empty set. -/
theorem c8_extract_dependencies :
    (∀ (x86_64 : Bool) (srcinfo : Rec) (d : String),
      (d ∈ extract_required_dependencies x86_64 srcinfo) ↔
        ∃ a ∈ depAttrs x86_64, ∃ v, getR srcinfo a = some v ∧ valTruthy v = true ∧
          d ∈ valElems v) ∧
    extract_required_dependencies true [("depends_i686", Val.vlist ["x"])] = [] ∧
    (∀ x86_64 : Bool,
      extract_required_dependencies x86_64 [("depends", Val.vlist ["x", "y"])] =
        ["x", "y"]) ∧
    (∀ x86_64 : Bool, extract_required_dependencies x86_64 [] = []) := by
  refine ⟨?_, ?_, ?_, ?_⟩
  · intro x86_64 srcinfo d
    unfold extract_required_dependencies
    rw [mem_depsFold]
    simp
  · rfl
  · intro x86_64
    cases x86_64 <;> rfl
  · intro x86_64
    cases x86_64 <;> rfl

/-- Witness for C8: membership in the extracted set at a concrete record. -/
theorem c8_extract_dependencies_witness :
    "x" ∈ extract_required_dependencies true
      [("depends", Val.vlist ["x", "y"]), ("url", Val.scalar "u")] :=
  (c8_extract_dependencies.1 true
      [("depends", Val.vlist ["x", "y"]), ("url", Val.scalar "u")] "x").mpr
    ⟨"depends", by decide, Val.vlist ["x", "y"], rfl, rfl, by decide⟩

/-! ## Tokenizer lemmas -/

theorem pyWs_not_word (c : Char) (h : pyWsChar c = true) : pyWordChar c = false := by
  simp only [pyWsChar, Bool.or_eq_true, decide_eq_true_eq] at h
  rcases h with ((((rfl | rfl) | rfl) | rfl) | rfl) | rfl <;> rfl

theorem takeWhile_append_cons {p : Char → Bool} (xs : List Char) (y : Char)
    (ys : List Char) (hxs : ∀ x ∈ xs, p x = true) (hy : p y = false) :
    (xs ++ y :: ys).takeWhile p = xs := by
  induction xs with
  | nil => simp [List.takeWhile_cons, hy]
  | cons x xs ih =>
    rw [List.cons_append, List.takeWhile_cons,
      if_pos (hxs x (List.mem_cons_self _ _)),
      ih (fun x hx => hxs x (List.mem_cons_of_mem _ hx))]

theorem dropWhile_append_cons {p : Char → Bool} (xs : List Char) (y : Char)
    (ys : List Char) (hxs : ∀ x ∈ xs, p x = true) (hy : p y = false) :
    (xs ++ y :: ys).dropWhile p = y :: ys := by
  induction xs with
  | nil => simp [List.dropWhile_cons, hy]
  | cons x xs ih =>
    rw [List.cons_append, List.dropWhile_cons,
      if_pos (hxs x (List.mem_cons_self _ _)),
      ih (fun x hx => hxs x (List.mem_cons_of_mem _ hx))]

theorem valAt_wellformed (v rest : List Char) (c0 : Char) (hc0 : c0 ≠ '\n')
    (hv : ∀ c ∈ c0 :: v, c ≠ '\n') :
    valAt ((c0 :: v) ++ '\n' :: rest) = some (c0 :: v, rest) := by
  have hred : valAt ((c0 :: v) ++ '\n' :: rest) =
      if c0 = '\n' then none
      else
        match ((c0 :: v) ++ '\n' :: rest).dropWhile (fun x => !(x = '\n')) with
        | [] => none
        | _ :: rem =>
          some (((c0 :: v) ++ '\n' :: rest).takeWhile (fun x => !(x = '\n')), rem) := rfl
  have hall : ∀ c ∈ c0 :: v, (fun x => !(x = '\n')) c = true := by
    intro c hc
    simpa using hv c hc
  rw [hred, if_neg hc0, takeWhile_append_cons _ _ _ hall (by simp),
    dropWhile_append_cons _ _ _ hall (by simp)]

theorem wsBacktrack_of_valAt (wRev q rest : List Char) (r : List Char × List Char)
    (h : valAt (q ++ rest) = some r) : wsBacktrack wRev q rest = some r := by
  match wRev with
  | [] =>
    show (match valAt (q ++ rest) with
      | some r => some r
      | none => none) = some r
    rw [h]
  | [w] =>
    show (match valAt (q ++ rest) with
      | some r => some r
      | none => none) = some r
    rw [h]
  | c :: c' :: wRev' =>
    show (match valAt (q ++ rest) with
      | some r => some r
      | none => wsBacktrack (c' :: wRev') (c :: q) rest) = some r
    rw [h]

theorem attemptMatch_wellformed (k w1 w2 v : List Char) (c0 : Char)
    (_hk : k ≠ []) (hkw : ∀ c ∈ k, pyWordChar c = true)
    (hw1 : w1 ≠ []) (hw1s : ∀ c ∈ w1, pyWsChar c = true)
    (hw2 : w2 ≠ []) (hw2s : ∀ c ∈ w2, pyWsChar c = true)
    (hc0 : pyWsChar c0 = false) (hv : ∀ c ∈ c0 :: v, c ≠ '\n') :
    attemptMatch (k ++ w1 ++ '=' :: (w2 ++ (c0 :: v) ++ ['\n'])) =
      some ((k, c0 :: v), []) := by
  obtain ⟨u1, w1', rfl⟩ := List.exists_cons_of_ne_nil hw1
  obtain ⟨u2, w2', rfl⟩ := List.exists_cons_of_ne_nil hw2
  have hu1w : pyWordChar u1 = false :=
    pyWs_not_word u1 (hw1s u1 (List.mem_cons_self _ _))
  have hktake : (k ++ (u1 :: w1') ++ '=' :: (u2 :: w2' ++ (c0 :: v) ++ ['\n'])).takeWhile
      pyWordChar = k := by
    rw [List.append_assoc, List.cons_append]
    exact takeWhile_append_cons _ _ _ hkw hu1w
  have hkdrop : (k ++ (u1 :: w1') ++ '=' :: (u2 :: w2' ++ (c0 :: v) ++ ['\n'])).dropWhile
      pyWordChar = u1 :: (w1' ++ '=' :: (u2 :: w2' ++ (c0 :: v) ++ ['\n'])) := by
    rw [List.append_assoc, List.cons_append]
    exact dropWhile_append_cons _ _ _ hkw hu1w
  have hw1take : (u1 :: (w1' ++ '=' :: (u2 :: w2' ++ (c0 :: v) ++ ['\n']))).takeWhile
      pyWsChar = u1 :: w1' := by
    have : (u1 :: w1') ++ '=' :: (u2 :: w2' ++ (c0 :: v) ++ ['\n']) =
        u1 :: (w1' ++ '=' :: (u2 :: w2' ++ (c0 :: v) ++ ['\n'])) := by simp
    rw [← this]
    exact takeWhile_append_cons _ _ _ hw1s (by rfl)
  have hw1drop : (u1 :: (w1' ++ '=' :: (u2 :: w2' ++ (c0 :: v) ++ ['\n']))).dropWhile
      pyWsChar = '=' :: (u2 :: w2' ++ (c0 :: v) ++ ['\n']) := by
    have : (u1 :: w1') ++ '=' :: (u2 :: w2' ++ (c0 :: v) ++ ['\n']) =
        u1 :: (w1' ++ '=' :: (u2 :: w2' ++ (c0 :: v) ++ ['\n'])) := by simp
    rw [← this]
    exact dropWhile_append_cons _ _ _ hw1s (by rfl)
  have hw2take : (u2 :: w2' ++ (c0 :: v) ++ ['\n']).takeWhile pyWsChar = u2 :: w2' := by
    rw [List.append_assoc, List.cons_append]
    have : w2' ++ ((c0 :: v) ++ ['\n']) = w2' ++ c0 :: (v ++ ['\n']) := by simp
    rw [this]
    exact takeWhile_append_cons _ _ _ hw2s hc0
  have hw2drop : (u2 :: w2' ++ (c0 :: v) ++ ['\n']).dropWhile pyWsChar =
      c0 :: (v ++ ['\n']) := by
    rw [List.append_assoc, List.cons_append]
    have : w2' ++ ((c0 :: v) ++ ['\n']) = w2' ++ c0 :: (v ++ ['\n']) := by simp
    rw [this]
    exact dropWhile_append_cons _ _ _ hw2s hc0
  have hval : valAt ([] ++ c0 :: (v ++ ['\n'])) = some (c0 :: v, []) := by
    have hc0n : c0 ≠ '\n' := by
      intro h
      rw [h] at hc0
      exact absurd hc0 (by simp [pyWsChar])
    have := valAt_wellformed v [] c0 hc0n hv
    simpa using this
  simp only [attemptMatch, hktake, hkdrop, hw1take, hw1drop, hw2take, hw2drop]
  rw [if_pos trivial, if_neg (by simp)]
  rw [wsBacktrack_of_valAt _ _ _ _ hval]
  rw [if_neg (by simp)]

theorem findAllAux_nil (fuel : Nat) : findAllAux fuel [] = [] := by
  cases fuel <;> rfl

/-- The tokenizer on a well-formed single-record document: a word-run key,
one or more whitespace characters on each side of `=`, and a value starting
with a non-whitespace character and free of newlines, terminated by a
newline. -/
theorem findAll_wellformed_line (k w1 w2 v : List Char) (c0 : Char)
    (hk : k ≠ []) (hkw : ∀ c ∈ k, pyWordChar c = true)
    (hw1 : w1 ≠ []) (hw1s : ∀ c ∈ w1, pyWsChar c = true)
    (hw2 : w2 ≠ []) (hw2s : ∀ c ∈ w2, pyWsChar c = true)
    (hc0 : pyWsChar c0 = false) (hv : ∀ c ∈ c0 :: v, c ≠ '\n') :
    findAll (String.mk (k ++ w1 ++ '=' :: (w2 ++ (c0 :: v) ++ ['\n']))) =
      [(String.mk k, String.mk (c0 :: v))] := by
  obtain ⟨kc, k', rfl⟩ := List.exists_cons_of_ne_nil hk
  unfold findAll
  have hlist : (String.mk (kc :: k' ++ w1 ++ '=' :: (w2 ++ (c0 :: v) ++ ['\n']))).toList =
      kc :: (k' ++ w1 ++ '=' :: (w2 ++ (c0 :: v) ++ ['\n'])) := by
    simp [String.toList]
  rw [hlist]
  rw [show (kc :: (k' ++ w1 ++ '=' :: (w2 ++ (c0 :: v) ++ ['\n']))).length =
      (k' ++ w1 ++ '=' :: (w2 ++ (c0 :: v) ++ ['\n'])).length + 1 from rfl]
  unfold findAllAux
  rw [if_pos (hkw kc (List.mem_cons_self _ _))]
  have hatt := attemptMatch_wellformed (kc :: k') w1 w2 v c0 hk hkw hw1 hw1s hw2 hw2s hc0 hv
  simp only [List.cons_append] at hatt
  rw [hatt]
  simp [findAllAux_nil]

theorem attemptMatch_no_eq (l : List Char) (h : ∀ c ∈ l, c ≠ '=') :
    attemptMatch l = none := by
  simp only [attemptMatch]
  by_cases hw : (l.dropWhile pyWordChar).takeWhile pyWsChar = []
  · rw [if_pos hw]
  · rw [if_neg hw]
    cases hs2 : (l.dropWhile pyWordChar).dropWhile pyWsChar with
    | nil => rfl
    | cons c s3 =>
      have hc : c ≠ '=' := by
        refine h c ?_
        have hmem : c ∈ (l.dropWhile pyWordChar).dropWhile pyWsChar := by
          rw [hs2]
          exact List.mem_cons_self _ _
        exact (List.dropWhile_sublist _).subset
          ((List.dropWhile_sublist _).subset hmem)
      simp [hc]

theorem findAllAux_no_eq (fuel : Nat) : ∀ l : List Char, (∀ c ∈ l, c ≠ '=') →
    findAllAux fuel l = [] := by
  induction fuel with
  | zero =>
    intro l _
    cases l <;> rfl
  | succ fuel ih =>
    intro l hl
    cases l with
    | nil => rfl
    | cons c rest =>
      unfold findAllAux
      by_cases hw : pyWordChar c = true
      · rw [if_pos hw, attemptMatch_no_eq _ hl]
        refine ih _ ?_
        intro x hx
        exact hl x ((List.dropWhile_sublist _).subset hx)
      · rw [if_neg hw]
        exact ih _ (fun x hx => hl x (List.mem_cons_of_mem _ hx))

/-- Lines containing no `=` character never produce a pair. -/
theorem findAll_no_eq (s : String) (h : ∀ c ∈ s.toList, c ≠ '=') :
    findAll s = [] :=
  findAllAux_no_eq _ _ h

/-- From the spec's words for C9: a line of the form
`<identifier> = <value>` — the whole line is a non-empty identifier of word
characters, a single space, a single `=`, a single space and a non-empty
value that starts with a non-space character and contains no further `=`.
This is the pattern the claim says the tokenizer accepts *exactly*. -/
def specTokenLine (line : String) : Option (String × String) :=
  let cs := line.toList
  let k := cs.takeWhile pyWordChar
  let rest := cs.drop k.length
  match rest with
  | ' ' :: c1 :: ' ' :: v =>
    if c1 = '=' ∧ k ≠ [] ∧ v ≠ [] ∧
        pyWsChar (v.headD ' ') = false ∧ '=' ∉ v then
      some (String.mk k, pyStrip (String.mk v))
    else none
  | _ => none

/-- Counterexample to C9 as stated: the line `a  =  b` does not match the
claimed pattern (two spaces on each side of `=`, not exactly one), yet the
tokenizer emits the pair `(a, b)` for it. -/
theorem c9_tokenizer_counterexample :
    findAll "a  =  b\n" = [("a", "b")] ∧ specTokenLine "a  =  b" = none := by
  constructor
  · rfl
  · rfl

/-- C9 (amended): the tokenizer emits a pair for a word-run key separated
from a newline-terminated value by `=` with one *or more* whitespace
characters on each side (the separating whitespace need not be exactly one
space), and any text containing no `=` at all yields no pair and no
error. -/
theorem c9_tokenizer_amended :
    (∀ (k w1 w2 v : List Char) (c0 : Char),
      k ≠ [] → (∀ c ∈ k, pyWordChar c = true) →
      w1 ≠ [] → (∀ c ∈ w1, pyWsChar c = true) →
      w2 ≠ [] → (∀ c ∈ w2, pyWsChar c = true) →
      pyWsChar c0 = false → (∀ c ∈ c0 :: v, c ≠ '\n') →
      findAll (String.mk (k ++ w1 ++ '=' :: (w2 ++ (c0 :: v) ++ ['\n']))) =
        [(String.mk k, String.mk (c0 :: v))]) ∧
    (∀ s : String, (∀ c ∈ s.toList, c ≠ '=') → findAll s = []) ∧
    findAll "ab=c\nkey =value\nkey= value\n" = [] := by
  refine ⟨findAll_wellformed_line, findAll_no_eq, rfl⟩

/-- Witness for the amended C9: a double-space line is tokenized, text
without `=` is skipped. -/
theorem c9_tokenizer_amended_witness :
    findAll (String.mk (['k', 'e', 'y'] ++ [' ', ' '] ++ '=' ::
        ([' ', ' '] ++ (['v', '1'] : List Char) ++ ['\n']))) =
      [(String.mk ['k', 'e', 'y'], String.mk ['v', '1'])] ∧
    findAll "no equals line\n" = [] := by
  constructor
  · exact c9_tokenizer_amended.1 ['k', 'e', 'y'] [' ', ' '] [' ', ' '] ['1'] 'v'
      (by decide) (by decide) (by decide) (by decide) (by decide) (by decide)
      (by decide) (by decide)
  · exact c9_tokenizer_amended.2.1 "no equals line\n" (by decide)

/-! ## Client lemmas -/

theorem get_src_info_zero (t : Transport) (cache : Cache) (name : String)
    (rn : Option String) :
    get_src_info t 0 cache name rn = ⟨Outcome.diverge, cache, []⟩ := rfl

theorem get_src_info_succ (t : Transport) (fuel : Nat) (cache : Cache) (name : String)
    (rn : Option String) :
    get_src_info t (fuel + 1) cache name rn =
      gsiStep t (fun b n => get_src_info t fuel cache b n) cache name rn := rfl

/-- C5 (claim): with the transport reporting a connectivity failure at
every endpoint, the document lookup returns an absent record with the cache
untouched, the info lookup returns the empty list and the bulk index
download returns an absent result — no operation propagates the failure. -/
theorem c5_transport_failure_absorbed (t : Transport)
    (hsrc : ∀ u, t.srcinfo u = Fetch.connFail)
    (hinfo : ∀ ns, t.info ns = InfoResp.connFail) :
    (∀ (fuel : Nat) (cache : Cache) (name : String) (rn : Option String),
      recTruthy (cacheGet cache name) = false →
      get_src_info t (fuel + 1) cache name rn =
        ⟨Outcome.ok none, cache,
          [RemoteCall.srcinfoFetch name, RemoteCall.infoFetch name]⟩) ∧
    (∀ names, get_info t names = []) ∧
    download_names Fetch.connFail = none := by
  refine ⟨?_, ?_, rfl⟩
  · intro fuel cache name rn hmiss
    rw [get_src_info_succ]
    unfold gsiStep
    rw [if_neg (by simp [hmiss]), hsrc name]
    show gsiFallback t _ cache name = _
    unfold gsiFallback
    have : get_info t [name] = [] := by
      unfold get_info
      rw [hinfo [name]]
    rw [this]
  · intro names
    unfold get_info
    rw [hinfo names]

/-- Witness for C5: the all-failing transport at concrete inputs. -/
theorem c5_transport_failure_absorbed_witness :
    get_src_info ⟨fun _ => Fetch.connFail, fun _ => InfoResp.connFail, Fetch.connFail⟩
        3 [] "pkg" none =
      ⟨Outcome.ok none, [],
        [RemoteCall.srcinfoFetch "pkg", RemoteCall.infoFetch "pkg"]⟩ ∧
    get_info ⟨fun _ => Fetch.connFail, fun _ => InfoResp.connFail, Fetch.connFail⟩
        ["pkg"] = [] ∧
    download_names Fetch.connFail = none := by
  have h := c5_transport_failure_absorbed
    ⟨fun _ => Fetch.connFail, fun _ => InfoResp.connFail, Fetch.connFail⟩
    (fun _ => rfl) (fun _ => rfl)
  exact ⟨h.1 2 [] "pkg" none rfl, h.2.1 ["pkg"], h.2.2⟩

/-- C6 (claim): `get_required_dependencies` raises `PackageNotFoundException`
exactly when the lookup (fallback included) resolves no truthy record, and
otherwise returns the extracted dependency set of the resolved record. -/
theorem c6_required_dependencies (t : Transport) (x86_64 : Bool) (fuel : Nat)
    (cache : Cache) (name : String) :
    ((get_required_dependencies t x86_64 fuel cache name).1 =
        DepsResult.packageNotFound name ↔
      ∃ r, (get_src_info t fuel cache name none).result = Outcome.ok r ∧
        recTruthy r = false) ∧
    (∀ rec : Rec, (get_src_info t fuel cache name none).result = Outcome.ok (some rec) →
      rec ≠ [] →
      (get_required_dependencies t x86_64 fuel cache name).1 =
        DepsResult.ok (extract_required_dependencies x86_64 rec)) := by
  constructor
  · simp only [get_required_dependencies]
    cases hres : (get_src_info t fuel cache name none).result with
    | diverge => simp
    | ok r =>
      by_cases ht : recTruthy r = true
      · simp only [ht, if_true]
        constructor
        · intro h
          exact absurd h (by simp)
        · rintro ⟨r', hr', hf⟩
          rw [Outcome.ok.inj hr'] at ht
          rw [ht] at hf
          exact absurd hf (by simp)
      · simp only [ht, if_false]
        constructor
        · intro _
          exact ⟨r, rfl, by simpa using ht⟩
        · intro _
          rfl
  · intro rec hres hne
    simp only [get_required_dependencies]
    rw [hres]
    have ht : recTruthy (some rec) = true := by simpa [recTruthy] using hne
    simp only [ht, if_true, Option.getD_some]

/-- Witness for C6: a resolvable name yields its dependency set, an
unresolvable one raises `PackageNotFoundException`. -/
theorem c6_required_dependencies_witness :
    (get_required_dependencies
        ⟨fun _ => Fetch.resp (some "pkgname = p\ndepends = d1\n"),
         fun _ => InfoResp.noRes, Fetch.resp none⟩
        true 3 [] "p").1 = DepsResult.ok ["d1"] ∧
    (get_required_dependencies
        ⟨fun _ => Fetch.resp none, fun _ => InfoResp.noRes, Fetch.resp none⟩
        true 3 [] "q").1 = DepsResult.packageNotFound "q" := by
  constructor
  · have h := (c6_required_dependencies
        ⟨fun _ => Fetch.resp (some "pkgname = p\ndepends = d1\n"),
         fun _ => InfoResp.noRes, Fetch.resp none⟩
        true 3 [] "p").2
      [("pkgname", Val.scalar "p"), ("depends", Val.vlist ["d1"])]
      (by rfl) (by decide)
    rw [h]
    rfl
  · exact (c6_required_dependencies
        ⟨fun _ => Fetch.resp none, fun _ => InfoResp.noRes, Fetch.resp none⟩
        true 3 [] "q").1.mpr ⟨none, rfl, rfl⟩

theorem gsiFallback_result_cached (t : Transport)
    (recCall : String → Option String → GsiOut) (cache : Cache) (name : String)
    (r : Rec)
    (hres : (gsiFallback t recCall cache name).result = Outcome.ok (some r))
    (hne : r ≠ []) :
    cacheGet (gsiFallback t recCall cache name).cache name = some r := by
  revert hres
  unfold gsiFallback
  cases hinfos : get_info t [name] with
  | nil =>
    intro hres
    simp at hres
  | cons info rest =>
    rcases info with ⟨iname, ibase⟩
    cases iname with
    | none =>
      intro hres
      simp at hres
    | some n =>
      cases ibase with
      | none =>
        intro hres
        simp at hres
      | some b =>
        dsimp only
        by_cases hcond : n ≠ "" ∧ b ≠ "" ∧ n ≠ b
        · rw [if_pos hcond]
          cases hrec : (recCall b (some n)).result with
          | diverge =>
            intro hres
            simp at hres
          | ok srcinfo =>
            dsimp only
            by_cases htr : recTruthy srcinfo = true
            · rw [if_pos htr]
              intro hres
              dsimp only at hres ⊢
              have hsr : srcinfo = some r := Outcome.ok.inj hres
              subst hsr
              rw [cacheGet_cacheSet_self]
              rfl
            · rw [if_neg htr]
              intro hres
              dsimp only at hres
              have hsr : srcinfo = some r := Outcome.ok.inj hres
              subst hsr
              exact absurd (by simpa [recTruthy] using hne) htr
        · rw [if_neg hcond]
          intro hres
          simp at hres

theorem gsiStep_result_cached (t : Transport)
    (recCall : String → Option String → GsiOut) (cache : Cache) (name : String)
    (rn : Option String) (r : Rec)
    (hres : (gsiStep t recCall cache name rn).result = Outcome.ok (some r))
    (hne : r ≠ []) :
    cacheGet (gsiStep t recCall cache name rn).cache name = some r := by
  revert hres
  unfold gsiStep
  by_cases hc : recTruthy (cacheGet cache name) = true
  · rw [if_pos hc]
    intro hres
    dsimp only at hres ⊢
    exact Outcome.ok.inj hres
  · rw [if_neg hc]
    cases hf : httpGet (t.srcinfo name) with
    | none =>
      intro hres
      exact gsiFallback_result_cached t recCall cache name r hres hne
    | some text =>
      dsimp only
      by_cases htext : text ≠ ""
      · rw [if_pos htext]
        by_cases hsi : map_srcinfo text (some (match rn with
            | some rn => if rn = "" then name else rn
            | none => name)) ≠ []
        · rw [if_pos hsi]
          intro hres
          dsimp only at hres ⊢
          rw [Option.some.inj (Outcome.ok.inj hres)] at hsi ⊢
          rw [cacheGet_cacheSet_self]
        · rw [if_neg hsi]
          intro hres
          dsimp only at hres
          rw [Option.some.inj (Outcome.ok.inj hres)] at hsi
          exact absurd hne hsi
      · rw [if_neg htext]
        intro hres
        exact gsiFallback_result_cached t recCall cache name r hres hne

theorem get_src_info_result_cached (t : Transport) (fuel : Nat) (cache : Cache)
    (name : String) (rn : Option String) (r : Rec)
    (hres : (get_src_info t fuel cache name rn).result = Outcome.ok (some r))
    (hne : r ≠ []) :
    cacheGet (get_src_info t fuel cache name rn).cache name = some r := by
  cases fuel with
  | zero =>
    rw [get_src_info_zero] at hres
    simp at hres
  | succ fuel =>
    rw [get_src_info_succ] at hres ⊢
    exact gsiStep_result_cached t _ cache name rn r hres hne

/-- C4 (amended): when a lookup resolves a truthy record, a repeated lookup
for the same name with no intervening cache clear performs no remote call
at all and returns the record cached by the first call. -/
theorem c4_cache_hit_after_success (t : Transport) (fuel fuel2 : Nat)
    (cache : Cache) (name : String) (rn rn2 : Option String) (r : Rec)
    (hres : (get_src_info t fuel cache name rn).result = Outcome.ok (some r))
    (hne : r ≠ []) :
    get_src_info t (fuel2 + 1) (get_src_info t fuel cache name rn).cache name rn2 =
      ⟨Outcome.ok (some r), (get_src_info t fuel cache name rn).cache, []⟩ := by
  have hcached := get_src_info_result_cached t fuel cache name rn r hres hne
  rw [get_src_info_succ]
  unfold gsiStep
  rw [hcached]
  have htr : recTruthy (some r) = true := by simpa [recTruthy] using hne
  rw [if_pos htr]

/-- Counterexample to C4 as stated: for a name whose first lookup resolves
nothing (document absent, no info entry), nothing is cached, and the second
lookup issues the remote document fetch again. -/
theorem c4_counterexample :
    (get_src_info ⟨fun _ => Fetch.resp none, fun _ => InfoResp.noRes, Fetch.resp none⟩
        3 [] "a" none).calls =
      [RemoteCall.srcinfoFetch "a", RemoteCall.infoFetch "a"] ∧
    (get_src_info ⟨fun _ => Fetch.resp none, fun _ => InfoResp.noRes, Fetch.resp none⟩
        3 (get_src_info ⟨fun _ => Fetch.resp none, fun _ => InfoResp.noRes, Fetch.resp none⟩
            3 [] "a" none).cache "a" none).calls =
      [RemoteCall.srcinfoFetch "a", RemoteCall.infoFetch "a"] := by
  constructor
  · rfl
  · rfl

/-- Witness for the amended C4 at a concrete transport: the second lookup
returns the cached record with an empty call log. -/
theorem c4_cache_hit_after_success_witness :
    get_src_info
        ⟨fun _ => Fetch.resp (some "pkgname = p\npkgver = 1\n"),
         fun _ => InfoResp.noRes, Fetch.resp none⟩
        2
        (get_src_info
          ⟨fun _ => Fetch.resp (some "pkgname = p\npkgver = 1\n"),
           fun _ => InfoResp.noRes, Fetch.resp none⟩
          3 [] "p" none).cache
        "p" none =
      ⟨Outcome.ok (some [("pkgname", Val.scalar "p"), ("pkgver", Val.scalar "1")]),
        [("p", [("pkgname", Val.scalar "p"), ("pkgver", Val.scalar "1")])], []⟩ := by
  have h := c4_cache_hit_after_success
    ⟨fun _ => Fetch.resp (some "pkgname = p\npkgver = 1\n"),
     fun _ => InfoResp.noRes, Fetch.resp none⟩
    3 1 [] "p" none none
    [("pkgname", Val.scalar "p"), ("pkgver", Val.scalar "1")]
    (by rfl) (by decide)
  rw [h]
  rfl

/-! ## Cache well-formedness -/

theorem cacheSet_WF (c : Cache) (k : String) (v : Rec)
    (hc : ∀ kv ∈ c, kv.2 ≠ []) (hv : v ≠ []) :
    ∀ kv ∈ cacheSet c k v, kv.2 ≠ [] := by
  intro kv hm
  rcases mem_cacheSet c k v kv hm with h | rfl
  · exact hc kv h
  · exact hv

theorem recTruthy_getD (r : Option Rec) (h : recTruthy r = true) : r.getD [] ≠ [] := by
  cases r with
  | none => simp [recTruthy] at h
  | some s => simpa [recTruthy] using h

theorem gsiFallback_cacheWF (t : Transport)
    (recCall : String → Option String → GsiOut) (cache : Cache) (name : String)
    (hc : ∀ kv ∈ cache, kv.2 ≠ [])
    (hrec : ∀ b n, ∀ kv ∈ (recCall b n).cache, kv.2 ≠ []) :
    ∀ kv ∈ (gsiFallback t recCall cache name).cache, kv.2 ≠ [] := by
  unfold gsiFallback
  cases hinfos : get_info t [name] with
  | nil => exact hc
  | cons info rest =>
    rcases info with ⟨iname, ibase⟩
    cases iname with
    | none => exact hc
    | some n =>
      cases ibase with
      | none => exact hc
      | some b =>
        dsimp only
        by_cases hcond : n ≠ "" ∧ b ≠ "" ∧ n ≠ b
        · rw [if_pos hcond]
          cases hrecr : (recCall b (some n)).result with
          | diverge => exact hrec b (some n)
          | ok srcinfo =>
            dsimp only
            by_cases htr : recTruthy srcinfo = true
            · rw [if_pos htr]
              exact cacheSet_WF _ _ _ (hrec b (some n)) (recTruthy_getD _ htr)
            · rw [if_neg htr]
              exact hrec b (some n)
        · rw [if_neg hcond]
          exact hc

theorem gsiStep_cacheWF (t : Transport)
    (recCall : String → Option String → GsiOut) (cache : Cache) (name : String)
    (rn : Option String) (hc : ∀ kv ∈ cache, kv.2 ≠ [])
    (hrec : ∀ b n, ∀ kv ∈ (recCall b n).cache, kv.2 ≠ []) :
    ∀ kv ∈ (gsiStep t recCall cache name rn).cache, kv.2 ≠ [] := by
  unfold gsiStep
  by_cases hcm : recTruthy (cacheGet cache name) = true
  · rw [if_pos hcm]
    exact hc
  · rw [if_neg hcm]
    cases hf : httpGet (t.srcinfo name) with
    | none => exact gsiFallback_cacheWF t recCall cache name hc hrec
    | some text =>
      dsimp only
      by_cases htext : text ≠ ""
      · rw [if_pos htext]
        by_cases hsi : map_srcinfo text (some (match rn with
            | some rn => if rn = "" then name else rn
            | none => name)) ≠ []
        · rw [if_pos hsi]
          exact cacheSet_WF _ _ _ hc hsi
        · rw [if_neg hsi]
          exact hc
      · rw [if_neg htext]
        exact gsiFallback_cacheWF t recCall cache name hc hrec

theorem get_src_info_cacheWF (t : Transport) (fuel : Nat) (cache : Cache)
    (name : String) (rn : Option String) (hc : ∀ kv ∈ cache, kv.2 ≠ []) :
    ∀ kv ∈ (get_src_info t fuel cache name rn).cache, kv.2 ≠ [] := by
  induction fuel generalizing cache name rn with
  | zero => exact hc
  | succ fuel ih =>
    rw [get_src_info_succ]
    exact gsiStep_cacheWF t _ cache name rn hc (fun b n => ih cache b n hc)

theorem runOps_cacheWF (t : Transport) (ops : List ClientOp) (cache : Cache)
    (hc : ∀ kv ∈ cache, kv.2 ≠ []) :
    ∀ kv ∈ runOps t ops cache, kv.2 ≠ [] := by
  induction ops generalizing cache with
  | nil => exact hc
  | cons op rest ih =>
    cases op with
    | lookup fuel n rn =>
      exact ih _ (get_src_info_cacheWF t fuel cache n rn hc)
    | clearCache =>
      refine ih _ ?_
      intro kv hkv
      simp [clean_caches] at hkv

/-! ## Falsy lookups leave the cache unchanged -/

theorem gsiFallback_falsy_cache (t : Transport)
    (recCall : String → Option String → GsiOut) (cache : Cache) (name : String)
    (hrec : ∀ b n r', (recCall b n).result = Outcome.ok r' → recTruthy r' = false →
      (recCall b n).cache = cache) :
    ∀ r', (gsiFallback t recCall cache name).result = Outcome.ok r' →
      recTruthy r' = false → (gsiFallback t recCall cache name).cache = cache := by
  unfold gsiFallback
  cases hinfos : get_info t [name] with
  | nil => exact fun _ _ _ => rfl
  | cons info rest =>
    rcases info with ⟨iname, ibase⟩
    cases iname with
    | none => exact fun _ _ _ => rfl
    | some n =>
      cases ibase with
      | none => exact fun _ _ _ => rfl
      | some b =>
        dsimp only
        by_cases hcond : n ≠ "" ∧ b ≠ "" ∧ n ≠ b
        · rw [if_pos hcond]
          cases hrecr : (recCall b (some n)).result with
          | diverge =>
            intro r' hres
            simp at hres
          | ok srcinfo =>
            dsimp only
            by_cases htr : recTruthy srcinfo = true
            · rw [if_pos htr]
              intro r' hres hfal
              dsimp only at hres
              rw [Outcome.ok.inj hres] at htr
              rw [htr] at hfal
              exact absurd hfal (by simp)
            · rw [if_neg htr]
              intro r' hres hfal
              dsimp only at hres ⊢
              exact hrec b (some n) srcinfo hrecr (by simpa using htr)
        · rw [if_neg hcond]
          exact fun _ _ _ => rfl

theorem gsiStep_falsy_cache (t : Transport)
    (recCall : String → Option String → GsiOut) (cache : Cache) (name : String)
    (rn : Option String)
    (hrec : ∀ b n r', (recCall b n).result = Outcome.ok r' → recTruthy r' = false →
      (recCall b n).cache = cache) :
    ∀ r', (gsiStep t recCall cache name rn).result = Outcome.ok r' →
      recTruthy r' = false → (gsiStep t recCall cache name rn).cache = cache := by
  unfold gsiStep
  by_cases hcm : recTruthy (cacheGet cache name) = true
  · rw [if_pos hcm]
    exact fun _ _ _ => rfl
  · rw [if_neg hcm]
    cases hf : httpGet (t.srcinfo name) with
    | none => exact gsiFallback_falsy_cache t recCall cache name hrec
    | some text =>
      dsimp only
      by_cases htext : text ≠ ""
      · rw [if_pos htext]
        by_cases hsi : map_srcinfo text (some (match rn with
            | some rn => if rn = "" then name else rn
            | none => name)) ≠ []
        · rw [if_pos hsi]
          intro r' hres hfal
          dsimp only at hres
          rw [← Outcome.ok.inj hres] at hfal
          simp [recTruthy, hsi] at hfal
        · rw [if_neg hsi]
          exact fun _ _ _ => rfl
      · rw [if_neg htext]
        exact gsiFallback_falsy_cache t recCall cache name hrec

theorem get_src_info_falsy_cache (t : Transport) (fuel : Nat) (cache : Cache)
    (name : String) (rn : Option String) (r : Option Rec)
    (hres : (get_src_info t fuel cache name rn).result = Outcome.ok r)
    (hfal : recTruthy r = false) :
    (get_src_info t fuel cache name rn).cache = cache := by
  induction fuel generalizing cache name rn r with
  | zero =>
    rw [get_src_info_zero] at hres
    simp at hres
  | succ fuel ih =>
    rw [get_src_info_succ] at hres ⊢
    exact gsiStep_falsy_cache t _ cache name rn
      (fun b n r' h1 h2 => ih cache b n r' h1 h2) r hres hfal

/-! ## A cache miss always fetches the document -/

theorem gsiFallback_calls_head (t : Transport)
    (recCall : String → Option String → GsiOut) (cache : Cache) (name : String) :
    (gsiFallback t recCall cache name).calls.head? =
      some (RemoteCall.srcinfoFetch name) := by
  unfold gsiFallback
  cases hinfos : get_info t [name] with
  | nil => rfl
  | cons info rest =>
    rcases info with ⟨iname, ibase⟩
    cases iname with
    | none => rfl
    | some n =>
      cases ibase with
      | none => rfl
      | some b =>
        dsimp only
        by_cases hcond : n ≠ "" ∧ b ≠ "" ∧ n ≠ b
        · rw [if_pos hcond]
          cases hrecr : (recCall b (some n)).result with
          | diverge => rfl
          | ok srcinfo =>
            dsimp only
            by_cases htr : recTruthy srcinfo = true
            · rw [if_pos htr]
              rfl
            · rw [if_neg htr]
              rfl
        · rw [if_neg hcond]
          rfl

theorem gsiStep_calls_head (t : Transport)
    (recCall : String → Option String → GsiOut) (cache : Cache) (name : String)
    (rn : Option String) (hm : recTruthy (cacheGet cache name) = false) :
    (gsiStep t recCall cache name rn).calls.head? =
      some (RemoteCall.srcinfoFetch name) := by
  unfold gsiStep
  rw [if_neg (by simp [hm])]
  cases hf : httpGet (t.srcinfo name) with
  | none => exact gsiFallback_calls_head t recCall cache name
  | some text =>
    dsimp only
    by_cases htext : text ≠ ""
    · rw [if_pos htext]
      by_cases hsi : map_srcinfo text (some (match rn with
          | some rn => if rn = "" then name else rn
          | none => name)) ≠ []
      · rw [if_pos hsi]
        rfl
      · rw [if_neg hsi]
        rfl
    · rw [if_neg htext]
      exact gsiFallback_calls_head t recCall cache name

/-- C10 (claim): across any sequence of lookups and cache clears started
from the empty cache, every cached record is non-empty; a lookup whose
outcome is empty or absent leaves the cache exactly as it was; and a lookup
for a name with no truthy cache entry performs the remote document fetch
first. -/
theorem c10_cache_only_truthy :
    (∀ (t : Transport) (ops : List ClientOp), ∀ kv ∈ runOps t ops [], kv.2 ≠ []) ∧
    (∀ (t : Transport) (fuel : Nat) (cache : Cache) (name : String)
      (rn : Option String) (r : Option Rec),
      (get_src_info t fuel cache name rn).result = Outcome.ok r →
      recTruthy r = false → (get_src_info t fuel cache name rn).cache = cache) ∧
    (∀ (t : Transport) (fuel : Nat) (cache : Cache) (name : String)
      (rn : Option String), recTruthy (cacheGet cache name) = false →
      (get_src_info t (fuel + 1) cache name rn).calls.head? =
        some (RemoteCall.srcinfoFetch name)) := by
  refine ⟨?_, get_src_info_falsy_cache, ?_⟩
  · intro t ops
    exact runOps_cacheWF t ops [] (by simp)
  · intro t fuel cache name rn hm
    rw [get_src_info_succ]
    exact gsiStep_calls_head t _ cache name rn hm

/-- Witness for C10 at a concrete transport and operation sequence: a
lookup that resolves nothing caches nothing and fetches again later, while
a successful lookup leaves only non-empty records in the cache. -/
theorem c10_cache_only_truthy_witness :
    (∀ kv ∈ runOps
        ⟨fun n => if n = "p" then Fetch.resp (some "pkgname = p\npkgver = 1\n")
                  else Fetch.resp none,
         fun _ => InfoResp.noRes, Fetch.resp none⟩
        [ClientOp.lookup 3 "q" none, ClientOp.lookup 3 "p" none,
         ClientOp.lookup 2 "q" none] [], kv.2 ≠ []) ∧
    (get_src_info
        ⟨fun _ => Fetch.resp none, fun _ => InfoResp.noRes, Fetch.resp none⟩
        3 [] "q" none).cache = [] ∧
    (get_src_info
        ⟨fun _ => Fetch.resp none, fun _ => InfoResp.noRes, Fetch.resp none⟩
        3 [] "q" none).calls.head? = some (RemoteCall.srcinfoFetch "q") := by
  refine ⟨c10_cache_only_truthy.1 _ _, ?_, ?_⟩
  · exact c10_cache_only_truthy.2.1
      ⟨fun _ => Fetch.resp none, fun _ => InfoResp.noRes, Fetch.resp none⟩
      3 [] "q" none none (by rfl) (by rfl)
  · exact c10_cache_only_truthy.2.2
      ⟨fun _ => Fetch.resp none, fun _ => InfoResp.noRes, Fetch.resp none⟩
      2 [] "q" none (by rfl)

/-! ## The base-package fallback -/

/-- A transport on which the base-package indirection chains twice:
`A`'s info entry names base `B`, `B`'s entry names base `C`, and only `C`
has a document. -/
def c3ChainTransport : Transport :=
  ⟨fun n => if n = "C" then Fetch.resp (some "pkgname = C\npkgver = 1\n")
            else Fetch.resp none,
   fun ns => if ns = ["A"] then InfoResp.results [⟨some "A", some "B"⟩]
             else if ns = ["B"] then InfoResp.results [⟨some "B", some "C"⟩]
             else InfoResp.noRes,
   Fetch.resp none⟩

/-- Counterexample to C3 as stated: under the claim's own conditions (the
document fetch for `A` yields no content and its info entry's canonical
name `A` differs from its base name `B`), the lookup performs *two* levels
of base-package indirection — three document fetches in all — because the
recursion for `B` repeats the fallback; the final record is the base
chain's last document, not the `A` sub-package. -/
theorem c3_one_level_counterexample :
    (get_src_info c3ChainTransport 9 [] "A" none).calls =
      [RemoteCall.srcinfoFetch "A", RemoteCall.infoFetch "A",
       RemoteCall.srcinfoFetch "B", RemoteCall.infoFetch "B",
       RemoteCall.srcinfoFetch "C"] ∧
    (get_src_info c3ChainTransport 9 [] "A" none).result =
      Outcome.ok (some [("pkgname", Val.scalar "C"), ("pkgver", Val.scalar "1")]) := by
  constructor
  · rfl
  · rfl

/-- C3 (amended): when the document fetch for the queried name yields no
content, its single info entry carries truthy canonical and base names that
differ, and the *base's* document fetch succeeds with a record that parses
non-empty, the lookup performs exactly one recursive lookup — for the base
name, with the canonical name as `real_name` — issuing exactly one further
document fetch, and returns the base document merged targeted at the
canonical name, cached under both names.  (The recursion is not bounded to
one level in general: when the base itself lacks a document and reports yet
another base, a further level follows, as the counterexample shows.) -/
theorem c3_fallback_one_level (t : Transport) (fuel : Nat) (cache : Cache)
    (name cn bn doc : String) (rn : Option String)
    (hmiss : recTruthy (cacheGet cache name) = false)
    (hdoc : httpGet (t.srcinfo name) = none)
    (hinfo : get_info t [name] = [⟨some cn, some bn⟩])
    (hcn : cn ≠ "") (hbn : bn ≠ "") (hne : cn ≠ bn)
    (hmiss2 : recTruthy (cacheGet cache bn) = false)
    (hdoc2 : httpGet (t.srcinfo bn) = some doc) (hdocne : doc ≠ "")
    (hparse : map_srcinfo doc (some cn) ≠ []) :
    get_src_info t (fuel + 2) cache name rn =
      ⟨Outcome.ok (some (map_srcinfo doc (some cn))),
       cacheSet (cacheSet cache bn (map_srcinfo doc (some cn))) name
         (map_srcinfo doc (some cn)),
       [RemoteCall.srcinfoFetch name, RemoteCall.infoFetch name,
        RemoteCall.srcinfoFetch bn]⟩ := by
  have hinner : get_src_info t (fuel + 1) cache bn (some cn) =
      ⟨Outcome.ok (some (map_srcinfo doc (some cn))),
       cacheSet cache bn (map_srcinfo doc (some cn)),
       [RemoteCall.srcinfoFetch bn]⟩ := by
    rw [get_src_info_succ]
    unfold gsiStep
    rw [if_neg (by simp [hmiss2]), hdoc2]
    dsimp only
    rw [if_pos hdocne, if_neg hcn, if_pos hparse]
  rw [get_src_info_succ]
  unfold gsiStep
  rw [if_neg (by simp [hmiss]), hdoc]
  show gsiFallback t _ cache name = _
  unfold gsiFallback
  rw [hinfo]
  dsimp only
  rw [if_pos ⟨hcn, hbn, hne⟩, hinner]
  dsimp only
  rw [if_pos (by simpa [recTruthy] using hparse)]
  rfl

/-- Witness for the amended C3: the `foo-git`/`foo` scenario of the
specification — `foo`'s document declares the sub-packages `foo` and
`foo-git`, and the merged record is filtered to the `foo-git` block. -/
theorem c3_fallback_one_level_witness :
    get_src_info
        ⟨fun n => if n = "foo"
            then Fetch.resp
              (some "pkgbase = foo\npkgname = foo\ndepends = d0\npkgname = foo-git\ndepends = d1\n")
            else Fetch.resp none,
         fun ns => if ns = ["foo-git"] then InfoResp.results [⟨some "foo-git", some "foo"⟩]
                   else InfoResp.noRes,
         Fetch.resp none⟩
        3 [] "foo-git" none =
      ⟨Outcome.ok (some [("pkgbase", Val.scalar "foo"),
          ("pkgname", Val.scalar "foo-git"), ("depends", Val.vlist ["d1"])]),
       [("foo", [("pkgbase", Val.scalar "foo"), ("pkgname", Val.scalar "foo-git"),
          ("depends", Val.vlist ["d1"])]),
        ("foo-git", [("pkgbase", Val.scalar "foo"), ("pkgname", Val.scalar "foo-git"),
          ("depends", Val.vlist ["d1"])])],
       [RemoteCall.srcinfoFetch "foo-git", RemoteCall.infoFetch "foo-git",
        RemoteCall.srcinfoFetch "foo"]⟩ := by
  have h := c3_fallback_one_level
    ⟨fun n => if n = "foo"
        then Fetch.resp
          (some "pkgbase = foo\npkgname = foo\ndepends = d0\npkgname = foo-git\ndepends = d1\n")
        else Fetch.resp none,
     fun ns => if ns = ["foo-git"] then InfoResp.results [⟨some "foo-git", some "foo"⟩]
               else InfoResp.noRes,
     Fetch.resp none⟩
    1 [] "foo-git" "foo-git" "foo"
    "pkgbase = foo\npkgname = foo\ndepends = d0\npkgname = foo-git\ndepends = d1\n"
    none rfl rfl rfl (by decide) (by decide) (by decide) rfl rfl (by decide)
    (by decide)
  rw [h]
  rfl

end Aur
